import Mathlib

/-!
Verification of the path-resolution and note-graph subsystem of an Obsidian-vault
MCP server (`vault.py`, `links.py`, `notes.py`).

The filesystem is modelled shallowly: an absolute, canonical vault root plus the
list of regular files on disk as absolute canonical segment paths (no symlinks;
directories are implied by prefixes; `Path.resolve` is modelled as `..`-removal).
Python strings are modelled as their code-point lists, and `re` scanning as
deterministic leftmost scanners, faithful to the concrete patterns in the source.
-/

/- Character and string helpers (Python str operations on code-point lists). -/

def lc (c : Char) : Char := c.toLower

def strLowerData (s : String) : List Char := s.data.map lc

def pyStartsWith (s pre : List Char) : Bool := pre.isPrefixOf s

def pyEndsWith (s suf : List Char) : Bool := suf.isSuffixOf s

abbrev Seg := String

abbrev AbsPath := List Seg

/-- Characters of `str(path)` for an absolute path, as Python renders it. -/
def pathChars (p : AbsPath) : List Char :=
  p.foldl (fun acc s => acc ++ ('/' :: s.data)) []

/-- Lexicographic (code-point) comparison of char lists, Python `str.__le__`. -/
def listLeCh : List Char → List Char → Bool
  | [], _ => true
  | _ :: _, [] => false
  | a :: as, b :: bs => if a < b then true else if b < a then false else listLeCh as bs

/-- Python `sorted` order on paths: by rendered path string. -/
def pathLe (a b : AbsPath) : Prop := listLeCh (pathChars a) (pathChars b) = true

instance : DecidableRel pathLe := fun _ _ => inferInstanceAs (Decidable (_ = true))

instance : IsTotal AbsPath pathLe :=
  ⟨by
    intro p q
    show listLeCh (pathChars p) (pathChars q) = true ∨ listLeCh (pathChars q) (pathChars p) = true
    generalize pathChars p = a
    generalize pathChars q = b
    induction a generalizing b with
    | nil => left; rfl
    | cons x xs ih =>
      cases b with
      | nil => right; rfl
      | cons y ys =>
        simp only [listLeCh]
        rcases lt_trichotomy x y with hxy | hxy | hxy
        · left; rw [if_pos hxy]
        · subst hxy
          rcases ih ys with h | h
          · left; rw [if_neg (lt_irrefl x), if_neg (lt_irrefl x)]; exact h
          · right; rw [if_neg (lt_irrefl x), if_neg (lt_irrefl x)]; exact h
        · right; rw [if_pos hxy]⟩

instance : IsTrans AbsPath pathLe :=
  ⟨by
    intro p q w
    show listLeCh (pathChars p) (pathChars q) = true → listLeCh (pathChars q) (pathChars w) = true →
      listLeCh (pathChars p) (pathChars w) = true
    generalize pathChars p = a
    generalize pathChars q = b
    generalize pathChars w = c
    induction a generalizing b c with
    | nil => intro _ _; rfl
    | cons x xs ih =>
      cases b with
      | nil => intro hpq _; simp [listLeCh] at hpq
      | cons y ys =>
        cases c with
        | nil => intro _ hqw; simp [listLeCh] at hqw
        | cons z zs =>
          intro hpq hqw
          simp only [listLeCh] at hpq hqw ⊢
          rcases lt_trichotomy x y with hxy | hxy | hxy
          · rcases lt_trichotomy y z with hyz | hyz | hyz
            · rw [if_pos (lt_trans hxy hyz)]
            · subst hyz; rw [if_pos hxy]
            · rw [if_neg (lt_asymm hyz), if_pos hyz] at hqw; exact absurd hqw (by simp)
          · subst hxy
            rw [if_neg (lt_irrefl x), if_neg (lt_irrefl x)] at hpq
            rcases lt_trichotomy x z with hxz | hxz | hxz
            · rw [if_pos hxz]
            · subst hxz
              rw [if_neg (lt_irrefl x), if_neg (lt_irrefl x)] at hqw ⊢
              exact ih ys zs hpq hqw
            · rw [if_neg (lt_asymm hxz), if_pos hxz] at hqw; exact absurd hqw (by simp)
          · rw [if_neg (lt_asymm hxy), if_pos hxy] at hpq; exact absurd hpq (by simp)⟩

/- Path splitting and canonicalization (pathlib drops empty and "." parts;
   `Path.resolve` folds ".." into the parent, stopping at the filesystem root). -/

def splitSegsAux (cur : List Char) : List Char → List (List Char)
  | [] => [cur.reverse]
  | c :: cs => if c = '/' then cur.reverse :: splitSegsAux [] cs else splitSegsAux (c :: cur) cs

def splitRef (s : String) : List Seg :=
  ((splitSegsAux [] s.data).map String.mk).filter (fun t => !(t == "" || t == "."))

/-- Python `str.strip("/")`. -/
def stripSlashes (s : String) : String :=
  String.mk (((s.data.dropWhile (fun c => c = '/')).reverse.dropWhile (fun c => c = '/')).reverse)

def canon (p : List Seg) : List Seg :=
  p.foldl (fun acc s => if s = ".." then acc.dropLast else acc ++ [s]) []

/- Vault filesystem model (`vault.py`). -/

structure VFs where
  root : AbsPath
  files : List AbsPath

/-- Python `candidate.is_file()` (the OS resolves ".." during the path walk). -/
def VFs.isFile (fs : VFs) (p : AbsPath) : Bool := fs.files.contains (canon p)

/-- `Vault._is_within_vault`: `str(path.resolve()).startswith(str(self.root))`. -/
def VFs.isWithinVault (fs : VFs) (p : AbsPath) : Bool :=
  pyStartsWith (pathChars (canon p)) (pathChars fs.root)

def EXCLUDED_DIRS : List String := [".obsidian", ".trash", ".git", ".venv", "node_modules"]

def lastSeg (p : AbsPath) : Seg := p.getLast?.getD ""

/-- `self.root.rglob(basename)` for a plain basename: files under the root whose
last segment equals it. -/
def VFs.rglobName (fs : VFs) (b : Seg) : List AbsPath :=
  fs.files.filter (fun p => fs.root.isPrefixOf p && lastSeg p == b)

/-- Rule-1 candidate of `Vault.resolve_path`: `self.root / name_or_path`. -/
def cand1 (fs : VFs) (ref : String) : AbsPath := fs.root ++ splitRef (stripSlashes ref)

/-- Rule-2 candidate of `Vault.resolve_path`: `self.root / (name_or_path + ".md")`. -/
def cand2 (fs : VFs) (ref : String) : AbsPath :=
  fs.root ++ splitRef (stripSlashes ref ++ ".md")

/-- The basename searched by rules 3 and 4: `Path(name_or_path).name`, with
`.md` appended if absent. -/
def searchName (ref : String) : Seg :=
  let b0 := lastSeg (splitRef (stripSlashes ref))
  if pyEndsWith b0.data ".md".data then b0 else b0 ++ ".md"

/-- Rule-3 match list: `rglob(basename)` filtered by `_is_within_vault` and `is_file`. -/
def rule3Matches (fs : VFs) (ref : String) : List AbsPath :=
  (fs.rglobName (searchName ref)).filter (fun m => fs.isWithinVault m)

/-- Rule 4: first file under the root matching the basename case-insensitively,
in traversal order. -/
def rule4Find (fs : VFs) (ref : String) : Option AbsPath :=
  fs.files.find? (fun p =>
    fs.root.isPrefixOf p && pyEndsWith (lastSeg p).data ".md".data &&
    (strLowerData (lastSeg p) == strLowerData (searchName ref)) && fs.isWithinVault p)

/-- `Vault.resolve_path`. -/
def VFs.resolvePath (fs : VFs) (ref : String) : Option AbsPath :=
  if fs.isFile (cand1 fs ref) && fs.isWithinVault (cand1 fs ref) then some (cand1 fs ref)
  else if !pyEndsWith (stripSlashes ref).data ".md".data && fs.isFile (cand2 fs ref) &&
      fs.isWithinVault (cand2 fs ref) then some (cand2 fs ref)
  else if !(rule3Matches fs ref).isEmpty then
    (List.insertionSort pathLe (rule3Matches fs ref)).head?
  else rule4Find fs ref

/-- `Vault.ensure_path` (directory creation side effect omitted). -/
def VFs.ensurePath (fs : VFs) (ref : String) : Except String AbsPath :=
  let s := stripSlashes ref
  let s2 := if pyEndsWith s.data ".md".data then s else s ++ ".md"
  let full := fs.root ++ splitRef s2
  if fs.isWithinVault full then Except.ok full
  else Except.error ("Path escapes vault: " ++ s2)

def relParts (root p : AbsPath) : List Seg := p.drop root.length

/-- `Vault._should_include`: no component of the root-relative path is excluded. -/
def VFs.shouldInclude (fs : VFs) (p : AbsPath) : Bool :=
  !(relParts fs.root p).any (fun seg => EXCLUDED_DIRS.contains seg)

/-- `Vault._within_depth`. -/
def withinDepth (base p : AbsPath) (maxDepth : Nat) : Bool :=
  (relParts base p).length ≤ maxDepth

def isMdName (n : Seg) : Bool := pyEndsWith n.data ".md".data

/-- `base.is_dir()` in the model: the root itself, or a proper prefix of some file. -/
def VFs.dirExists (fs : VFs) (base : AbsPath) : Bool :=
  base == fs.root || fs.files.any (fun f => base.isPrefixOf f && base ≠ f)

/-- The base folder of a listing: `self.root / folder if folder else self.root`. -/
def iterBase (fs : VFs) (folder : String) : AbsPath := fs.root ++ splitRef folder

/-- `Vault.iter_notes`: sorted `.md` files, exclusions filtered, recursive walk
bounded by `max_depth`; empty (not an error) when the folder does not exist. -/
def VFs.iterNotes (fs : VFs) (folder : String) (recursive : Bool) (maxDepth : Nat) :
    List AbsPath :=
  if !fs.dirExists (iterBase fs folder) then [] else
  if recursive then
    (List.insertionSort pathLe
      (fs.files.filter (fun p => (iterBase fs folder).isPrefixOf p && p ≠ iterBase fs folder &&
        isMdName (lastSeg p)))).filter
      (fun p => fs.shouldInclude p && withinDepth (iterBase fs folder) p maxDepth)
  else
    (List.insertionSort pathLe
      (fs.files.filter (fun p => p.length = (iterBase fs folder).length + 1 &&
        (iterBase fs folder).isPrefixOf p && isMdName (lastSeg p) && lastSeg p ≠ ".md"))).filter
      (fun p => fs.shouldInclude p)

/- Wikilink extraction (`links.py` WIKILINK_PATTERN), as the deterministic
   leftmost scanner the regex denotes:
   an optional `!`, then `[[`, a nonempty target over the class excluding
   `]`, `|`, `#`, `^`, an optional `#`-qualifier over the class excluding
   `]`, `|`, an optional `|`-alias (nonempty, excluding `]`), then `]]`. -/

def takeNotIn (bad : List Char) : List Char → (List Char × List Char)
  | [] => ([], [])
  | c :: cs =>
    if c ∈ bad then ([], c :: cs)
    else
      let p := takeNotIn bad cs
      (c :: p.1, p.2)

def afterHash (r : List Char) : List Char :=
  match r with
  | [] => []
  | c :: r1 => if c = '#' then (takeNotIn [']', '|'] r1).2 else c :: r1

def afterAlias (r : List Char) : Option (List Char) :=
  match r with
  | [] => some []
  | c :: r1 =>
    if c = '|' then
      let p := takeNotIn [']'] r1
      if p.1 = [] then none else some p.2
    else some (c :: r1)

def expectClose (r : List Char) : Option (List Char) :=
  match r with
  | c1 :: c2 :: r2 => if c1 = ']' ∧ c2 = ']' then some r2 else none
  | _ => none

def matchLinkCore (l1 : List Char) : Option (List Char × List Char) :=
  match l1 with
  | c1 :: c2 :: r =>
    if c1 = '[' ∧ c2 = '[' then
      let p := takeNotIn [']', '|', '#', '^'] r
      if p.1 = [] then none
      else
        match afterAlias (afterHash p.2) with
        | some r2 =>
          match expectClose r2 with
          | some rest => some (p.1, rest)
          | none => none
        | none => none
    else none
  | _ => none

def matchLink (l : List Char) : Option (List Char × List Char) :=
  match l with
  | c :: r => if c = '!' then matchLinkCore r else matchLinkCore (c :: r)
  | [] => none

def parseWikilinksGo (fuel : Nat) (l : List Char) : List (List Char) :=
  match fuel, l with
  | _, [] => []
  | 0, _ :: _ => []
  | fuel + 1, c :: cs =>
    match matchLink (c :: cs) with
    | some (t, rest) => t :: parseWikilinksGo fuel rest
    | none => parseWikilinksGo fuel cs

/-- `parse_wikilinks`: every match's captured target, in textual order. -/
def parseWikilinks (l : List Char) : List (List Char) := parseWikilinksGo l.length l

def parseWikilinksStr (s : String) : List String := (parseWikilinks s.data).map String.mk

/- Rename-propagation rewrite: the pattern
   `(\[\[)` + re.escape(old) + `(\]\]|\||\#)` with IGNORECASE, substituted by
   group 1, the new name, group 2 — as a leftmost non-overlapping scanner. -/

/-- Case-insensitive literal match of `os` against a prefix of `l`; returns the rest. -/
def stripCI : List Char → List Char → Option (List Char)
  | [], l => some l
  | _ :: _, [] => none
  | o :: os, c :: cs => if lc c = lc o then stripCI os cs else none

/-- The `\]\]` arm of the delimiter alternation. -/
def delimClose : List Char → Option (List Char × List Char)
  | c2 :: r2 => if c2 = ']' then some ([']', ']'], r2) else none
  | [] => none

/-- The delimiter alternation `(\]\]|\||\#)`. -/
def delimAt (l : List Char) : Option (List Char × List Char) :=
  match l with
  | [] => none
  | c :: r =>
    if c = '|' then some (['|'], r)
    else if c = '#' then some (['#'], r)
    else if c = ']' then delimClose r
    else none

def stripDelim (os l : List Char) : Option (List Char × List Char) :=
  match stripCI os l with
  | some r => delimAt r
  | none => none

/-- Whether the update_wikilinks pattern matches at the start of `l`; returns
the matched delimiter and the text after the whole match. -/
def matchTok (old : List Char) (l : List Char) : Option (List Char × List Char) :=
  match l with
  | c1 :: c2 :: r => if c1 = '[' ∧ c2 = '[' then stripDelim old r else none
  | _ => none

def subLinksGo (old new : List Char) (fuel : Nat) (l : List Char) : List Char :=
  match fuel, l with
  | _, [] => []
  | 0, rest => rest
  | fuel + 1, c :: cs =>
    match matchTok old (c :: cs) with
    | some (d, rest) => '[' :: '[' :: (new ++ d ++ subLinksGo old new fuel rest)
    | none => c :: subLinksGo old new fuel cs

/-- `pattern.sub(r"\g<1>" + new_name + r"\2", content)`. -/
def subLinks (old new l : List Char) : List Char := subLinksGo old new l.length l

def subLinksStr (oldN newN s : String) : String := String.mk (subLinks oldN.data newN.data s.data)

/-- Whether the update_wikilinks pattern matches anywhere in `l`: a residual
`[[old]]` / `[[old|` / `[[old#` token is present. -/
def hasTok (old : List Char) : List Char → Bool
  | [] => false
  | c :: cs => (matchTok old (c :: cs)).isSome || hasTok old cs

def hasTokStr (oldN : String) (s : String) : Bool := hasTok oldN.data s.data

/-- A token for `old` with delimiter `d` followed by the text `a` starts here. -/
def tokDAt (old d a l : List Char) : Bool :=
  match matchTok old l with
  | some (d2, rest) => d2 == d && a.isPrefixOf rest
  | none => false

/-- A token `[[old` + `d` + `a`... occurs somewhere in the text. -/
def hasTokD (old d a : List Char) : List Char → Bool
  | [] => false
  | c :: cs => tokDAt old d a (c :: cs) || hasTokD old d a cs

def isDelim (d : List Char) : Prop := d = [']', ']'] ∨ d = ['|'] ∨ d = ['#']

def wikiSpecials : List Char := ['[', ']', '|', '#']

/-- Side conditions on a rename's old name: nonempty, and no character whose
lowercase form collides with the pattern metacharacters. -/
def goodOld (old : List Char) : Prop := old ≠ [] ∧ ∀ c ∈ old, lc c ∉ wikiSpecials

/-- Side conditions on a rename's new name: no pattern metacharacters. -/
def goodNew (new : List Char) : Prop := ∀ c ∈ new, c ∉ wikiSpecials

instance (l : List Char) : Decidable (goodOld l) := by unfold goodOld; infer_instance

instance (l : List Char) : Decidable (goodNew l) := by unfold goodNew; infer_instance

/- Note-level vault model for the link-graph operations (`links.py`, `notes.py`).
   A note's content is `none` when reading it raises (decode or I/O failure). -/

structure MNote where
  path : AbsPath
  content : Option String
deriving DecidableEq

structure MVault where
  root : AbsPath
  notes : List MNote
deriving DecidableEq

def MVault.toVFs (v : MVault) : VFs := ⟨v.root, v.notes.map (·.path)⟩

/-- `Path.stem` for a note path (the `.md` case used by the code). -/
def stemOf (p : AbsPath) : String :=
  let n := lastSeg p
  if pyEndsWith n.data ".md".data then String.mk (n.data.take (n.data.length - 3)) else n

/-- The get_backlinks per-target criterion: `t.lower() == stem.lower()` or
`t.lower().endswith("/" + stem.lower())`. -/
def backlinkTargetMatch (t : List Char) (stem : String) : Bool :=
  let tl := t.map lc
  let sl := strLowerData stem
  tl == sl || pyEndsWith tl ('/' :: sl)

/-- One note's contribution to get_backlinks: skipped if it is the target note,
skipped on read failure, reported once if any parsed target matches. -/
def backlinkEntry (target : AbsPath) (stem : String) (n : MNote) : Option AbsPath :=
  if n.path = target then none
  else
    match n.content with
    | none => none
    | some c =>
      match (parseWikilinks c.data).find? (fun t => backlinkTargetMatch t stem) with
      | some _ => some n.path
      | none => none

/-- `get_backlinks`, reduced to the list of reporting notes. -/
def getBacklinks (v : MVault) (target : AbsPath) : List AbsPath :=
  v.notes.filterMap (backlinkEntry target (stemOf target))

def dedupCIGo (seen : List (List Char)) : List (List Char) → List (List Char)
  | [] => []
  | t :: rest =>
    if seen.contains (t.map lc) then dedupCIGo seen rest
    else t :: dedupCIGo (t.map lc :: seen) rest

/-- Case-insensitive first-seen deduplication used by get_outgoing_links. -/
def dedupCI (ts : List (List Char)) : List (List Char) := dedupCIGo [] ts

/-- The unique targets listed by get_outgoing_links for a note body. -/
def outgoingTargets (c : String) : List (List Char) := dedupCIGo [] (parseWikilinks c.data)

/-- `get_outgoing_links`: each unique target with its independent resolution. -/
def getOutgoingLinks (v : MVault) (c : String) : List (List Char × Option AbsPath) :=
  (outgoingTargets c).map (fun t => (t, v.toVFs.resolvePath (String.mk t)))

/- `update_wikilinks` and `move_note`. -/

def updateNote (oldN newN : String) (n : MNote) : MNote :=
  match n.content with
  | none => n
  | some c => ⟨n.path, some (subLinksStr oldN newN c)⟩

def noteChanged (oldN newN : String) (n : MNote) : Bool :=
  match n.content with
  | none => false
  | some c => subLinksStr oldN newN c ≠ c

/-- `update_wikilinks`: unreadable notes are skipped, others rewritten; returns
the count of files whose content changed and the resulting vault state. -/
def updateWikilinks (oldN newN : String) (notes : List MNote) : Nat × List MNote :=
  ((notes.filter (noteChanged oldN newN)).length, notes.map (updateNote oldN newN))

/-- `shutil.move`: the source entry now lives at the destination path. -/
def renameEntry (src dst : AbsPath) (notes : List MNote) : List MNote :=
  notes.map (fun n => if n.path = src then ⟨dst, n.content⟩ else n)

/-- The rewrite loop inside `move_note`: skips the moved note itself; a read
failure raises out of the whole operation (no per-file handler in the source). -/
def moveRewriteLoop (dst : AbsPath) (oldN newN : String) : List MNote → Except String (List MNote)
  | [] => Except.ok []
  | n :: rest =>
    if n.path = dst then (moveRewriteLoop dst oldN newN rest).map (n :: ·)
    else
      match n.content with
      | none => Except.error "UnicodeDecodeError"
      | some c =>
        (moveRewriteLoop dst oldN newN rest).map
          (MNote.mk n.path (some (subLinksStr oldN newN c)) :: ·)

/-- `move_note` after source/destination resolution: move the file, then (when
the stems differ) rewrite wikilinks across the vault. -/
def moveNote (notes : List MNote) (src dst : AbsPath) : Except String (List MNote) :=
  let oldN := stemOf src
  let newN := stemOf dst
  let moved := renameEntry src dst notes
  if oldN = newN then Except.ok moved else moveRewriteLoop dst oldN newN moved

/- Concrete instances used by witnesses and counterexamples. -/

def fsC1 : VFs := ⟨["vault"], [["vaultx", "e.md"], ["etc", "passwd"]]⟩

def fsC3 : VFs := ⟨["v"], [["v", ".trash", "note.md"]]⟩

def fsC4 : VFs := ⟨["v"], [["v", "y", "note.md"], ["v", "x", "note.md"]]⟩

def fsC9 : VFs := ⟨["v"], [["v", "note"], ["v", "note.md"]]⟩

def fsC8 : VFs := ⟨["v"], [["v", ".obsidian", "x.md"], ["v", "sub", "b.md"], ["v", "a.md"],
  ["v", "d1", "d2", "d3", "c.md"]]⟩

def vC6 : MVault := ⟨["v"],
  [⟨["v", "a.md"], some "[[B]]"⟩, ⟨["v", "x", "B.md"], some ""⟩, ⟨["v", "y", "B.md"], some ""⟩]⟩

def notesC2 : List MNote := [⟨["v", "old.md"], some "see [[old]]"⟩]

def notesC7 : List MNote :=
  [⟨["v", "a.md"], some "[[old]] here"⟩, ⟨["v", "bad.md"], none⟩, ⟨["v", "old.md"], some ""⟩]

/- ===================== General helper lemmas ===================== -/

theorem listLeCh_refl (a : List Char) : listLeCh a a = true := by
  induction a with
  | nil => rfl
  | cons x xs ih => simp only [listLeCh, if_neg (lt_irrefl x)]; exact ih

theorem pathLe_refl (p : AbsPath) : pathLe p p := listLeCh_refl (pathChars p)

theorem shouldInclude_iff (fs : VFs) (p : AbsPath) :
    fs.shouldInclude p = true ↔ ∀ s ∈ relParts fs.root p, s ∉ EXCLUDED_DIRS := by
  unfold VFs.shouldInclude
  simp [List.any_eq_false]

theorem backlinkEntry_some_path {target : AbsPath} {stem : String} {n : MNote} {A : AbsPath}
    (h : backlinkEntry target stem n = some A) : n.path = A := by
  unfold backlinkEntry at h
  split at h
  · exact absurd h (by simp)
  · split at h
    · exact absurd h (by simp)
    · split at h
      · exact Option.some.injEq _ _ ▸ h
      · exact absurd h (by simp)

/- ===================== Claim theorems ===================== -/

/-- C1 (code_bug): the containment check `_is_within_vault` is a string-prefix
test on the canonical path, so a reference whose canonical form escapes into a
sibling directory sharing the root's name as a string prefix is accepted:
with root `/vault` and an existing file `/vaultx/e.md`, `resolve_path` returns
a path whose canonical form is not a descendant of the root, and `ensure_path`
succeeds instead of failing with a path-escape error. A genuinely
prefix-incompatible escape such as `../../etc/passwd` is rejected as the claim
states, which isolates the string-prefix comparison as the defect. -/
theorem vault_C1_path_escape_code_bug :
    fsC1.resolvePath "../vaultx/e.md" = some ["vault", "..", "vaultx", "e.md"] ∧
    canon ["vault", "..", "vaultx", "e.md"] = ["vaultx", "e.md"] ∧
    fsC1.isWithinVault ["vault", "..", "vaultx", "e.md"] = true ∧
    (["vault"] : AbsPath).isPrefixOf ["vaultx", "e.md"] = false ∧
    fsC1.ensurePath "../vaultx/e.md" = Except.ok ["vault", "..", "vaultx", "e.md"] ∧
    fsC1.resolvePath "../../etc/passwd" = none ∧
    fsC1.ensurePath "../../etc/passwd" = Except.error "Path escapes vault: ../../etc/passwd.md" :=
  ⟨by decide, by decide, by decide, by decide, rfl, by decide, rfl⟩

/-- C7 (code_bug): per-file read failures are caught and skipped in
`update_wikilinks` and `get_backlinks`, but the rewrite loop inside `move_note`
has no per-file handler: on a vault containing an unreadable note, `move_note`
aborts with the decode error while the two guarded scans skip the note and
complete. -/
theorem links_C7_scan_abort_code_bug :
    moveNote notesC7 ["v", "old.md"] ["v", "new.md"] = Except.error "UnicodeDecodeError" ∧
    updateWikilinks "old" "new" notesC7 =
      (1, [⟨["v", "a.md"], some "[[new]] here"⟩, ⟨["v", "bad.md"], none⟩,
        ⟨["v", "old.md"], some ""⟩]) ∧
    getBacklinks ⟨["v"], notesC7⟩ ["v", "old.md"] = [["v", "a.md"]] :=
  ⟨rfl, by decide, by decide⟩

/-- C3 (counterexample): basename resolution does not respect the excluded-set:
in a vault whose only `note.md` lies under `.trash`, resolving the bare name
`note` returns the file inside the excluded directory, contradicting the claim
that files under excluded directories are never matched for resolution. -/
theorem vault_C3_counterexample :
    fsC3.resolvePath "note" = some ["v", ".trash", "note.md"] ∧
    ".trash" ∈ EXCLUDED_DIRS ∧
    ".trash" ∈ relParts fsC3.root ["v", ".trash", "note.md"] :=
  ⟨by decide, by decide, by decide⟩

/-- C3 (amended): the excluded-directory set governs the traversal enumerators,
not name resolution: every path yielded by `iter_notes` (recursive or not) has
no excluded directory among its root-relative components. -/
theorem vault_C3_iter_excludes (fs : VFs) (folder : String) (recursive : Bool) (maxDepth : Nat)
    (p : AbsPath) (hp : p ∈ fs.iterNotes folder recursive maxDepth) :
    ∀ s ∈ relParts fs.root p, s ∉ EXCLUDED_DIRS := by
  unfold VFs.iterNotes at hp
  split at hp
  · exact absurd hp (List.not_mem_nil p)
  · split at hp
    · have h2 := (List.mem_filter.1 hp).2
      exact (shouldInclude_iff fs p).1 (Bool.and_eq_true _ _ ▸ h2).1
    · have h2 := (List.mem_filter.1 hp).2
      exact (shouldInclude_iff fs p).1 h2

/-- Witness for C3 (amended) at a concrete vault. -/
theorem vault_C3_iter_excludes_witness :
    ["v", "a.md"] ∈ fsC8.iterNotes "" true 2 ∧
    ∀ s ∈ relParts fsC8.root ["v", "a.md"], s ∉ EXCLUDED_DIRS :=
  ⟨by decide, vault_C3_iter_excludes fsC8 "" true 2 ["v", "a.md"] (by decide)⟩

/-- C10 (confirmed): `get_backlinks` reports each distinct note at most once
(the per-note scan stops at the first matching target), provided the walked
note paths are distinct, as a filesystem walk guarantees. -/
theorem links_C10_backlinks_once (v : MVault) (target : AbsPath)
    (hnd : (v.notes.map (·.path)).Nodup) :
    (getBacklinks v target).Nodup ∧
    ∀ p, @List.count AbsPath instBEqOfDecidableEq p (getBacklinks v target) ≤ 1 := by
  have main : ∀ ns : List MNote, (ns.map (·.path)).Nodup →
      (ns.filterMap (backlinkEntry target (stemOf target))).Nodup := by
    intro ns
    induction ns with
    | nil => intro _; simp
    | cons n rest ih =>
      intro h
      rw [List.map_cons, List.nodup_cons] at h
      rw [List.filterMap_cons]
      cases hbe : backlinkEntry target (stemOf target) n with
      | none => exact ih h.2
      | some A =>
        rw [List.nodup_cons]
        refine ⟨?_, ih h.2⟩
        intro hmem
        rcases List.mem_filterMap.1 hmem with ⟨n2, hn2, hsome⟩
        have hA : n.path = A := backlinkEntry_some_path hbe
        have hA2 : n2.path = A := backlinkEntry_some_path hsome
        exact h.1 (by rw [hA, ← hA2]; exact List.mem_map_of_mem _ hn2)
  have h1 : (getBacklinks v target).Nodup := main v.notes hnd
  exact ⟨h1, fun p => List.nodup_iff_count_le_one.1 h1 p⟩

/-- Witness for C10 at a concrete vault. -/
theorem links_C10_backlinks_once_witness :
    (vC6.notes.map (·.path)).Nodup ∧
    ((getBacklinks vC6 ["v", "y", "B.md"]).Nodup ∧
      ∀ p, @List.count AbsPath instBEqOfDecidableEq p (getBacklinks vC6 ["v", "y", "B.md"]) ≤ 1) :=
  ⟨by decide, links_C10_backlinks_once vC6 ["v", "y", "B.md"] (by decide)⟩

/-- C4 (confirmed): resolution is a pure function of the filesystem state, so
resolving the same reference twice without mutation yields the same result; and
whenever rules 1 and 2 fail and the basename search has matches, the returned
path is a match that is lexicographically least among all matches (the source
sorts the match list and returns its head), hence the same file on every
invocation even with duplicate basenames in different folders. -/
theorem vault_C4_deterministic_min (fs : VFs) (ref : String)
    (h1 : (fs.isFile (cand1 fs ref) && fs.isWithinVault (cand1 fs ref)) = false)
    (h2 : (!pyEndsWith (stripSlashes ref).data ".md".data && fs.isFile (cand2 fs ref) &&
      fs.isWithinVault (cand2 fs ref)) = false)
    (hm : rule3Matches fs ref ≠ []) :
    fs.resolvePath ref = fs.resolvePath ref ∧
    ∃ m, fs.resolvePath ref = some m ∧ m ∈ rule3Matches fs ref ∧
      ∀ q ∈ rule3Matches fs ref, pathLe m q := by
  refine ⟨rfl, ?_⟩
  have hie : (rule3Matches fs ref).isEmpty = false := List.isEmpty_eq_false.2 hm
  have hres : fs.resolvePath ref = (List.insertionSort pathLe (rule3Matches fs ref)).head? := by
    unfold VFs.resolvePath
    rw [h1, h2, hie]
    rfl
  cases hsort : List.insertionSort pathLe (rule3Matches fs ref) with
  | nil =>
    exfalso
    have hperm := List.perm_insertionSort pathLe (rule3Matches fs ref)
    rw [hsort] at hperm
    have hl := hperm.length_eq
    simp only [List.length_nil] at hl
    exact hm (List.length_eq_zero.1 hl.symm)
  | cons m t =>
    refine ⟨m, ?_, ?_, ?_⟩
    · rw [hres, hsort]; rfl
    · have hmem : m ∈ List.insertionSort pathLe (rule3Matches fs ref) := by
        rw [hsort]; exact List.mem_cons_self m t
      exact (List.mem_insertionSort pathLe).1 hmem
    · intro q hq
      have hsorted := List.sorted_insertionSort pathLe (rule3Matches fs ref)
      rw [hsort] at hsorted
      have hq2 : q ∈ List.insertionSort pathLe (rule3Matches fs ref) :=
        (List.mem_insertionSort pathLe).2 hq
      rw [hsort] at hq2
      rcases List.mem_cons.1 hq2 with rfl | hq3
      · exact pathLe_refl q
      · exact List.rel_of_sorted_cons hsorted q hq3

/-- Witness for C4: a vault with two files named `note.md` in different folders;
resolving the bare name returns the lexicographically smallest, `x/note.md`. -/
theorem vault_C4_deterministic_min_witness :
    ((fsC4.isFile (cand1 fsC4 "note") && fsC4.isWithinVault (cand1 fsC4 "note")) = false) ∧
    ((!pyEndsWith (stripSlashes "note").data ".md".data && fsC4.isFile (cand2 fsC4 "note") &&
      fsC4.isWithinVault (cand2 fsC4 "note")) = false) ∧
    rule3Matches fsC4 "note" ≠ [] ∧
    (fsC4.resolvePath "note" = fsC4.resolvePath "note" ∧
      ∃ m, fsC4.resolvePath "note" = some m ∧ m ∈ rule3Matches fsC4 "note" ∧
        ∀ q ∈ rule3Matches fsC4 "note", pathLe m q) :=
  ⟨by decide, by decide, by decide,
    vault_C4_deterministic_min fsC4 "note" (by decide) (by decide) (by decide)⟩

/-- C8 (confirmed): the recursive enumerator yields exactly the `.md` files
under the base folder whose base-relative path has at most `max_depth`
segments and which have no excluded directory among their components; the
output is sorted (stable deterministic order), and a nonexistent folder
yields the empty sequence rather than an error. -/
theorem vault_C8_iter_notes_spec (fs : VFs) (folder : String) (maxDepth : Nat) :
    (∀ p, p ∈ fs.iterNotes folder true maxDepth ↔
      (fs.dirExists (iterBase fs folder) = true ∧ p ∈ fs.files ∧
        (iterBase fs folder).isPrefixOf p = true ∧ p ≠ iterBase fs folder ∧
        isMdName (lastSeg p) = true ∧
        (∀ s ∈ relParts fs.root p, s ∉ EXCLUDED_DIRS) ∧
        (relParts (iterBase fs folder) p).length ≤ maxDepth)) ∧
    List.Sorted pathLe (fs.iterNotes folder true maxDepth) ∧
    (fs.dirExists (iterBase fs folder) = false → fs.iterNotes folder true maxDepth = []) := by
  refine ⟨?_, ?_, ?_⟩
  · intro p
    unfold VFs.iterNotes
    by_cases hd : fs.dirExists (iterBase fs folder) = true
    · rw [hd]
      simp only [Bool.not_true, Bool.false_eq_true, if_false, if_true]
      rw [List.mem_filter, List.mem_insertionSort, List.mem_filter]
      simp only [Bool.and_eq_true, decide_eq_true_eq]
      constructor
      · rintro ⟨⟨hpf, ⟨⟨hpre, hne⟩, hmd⟩⟩, hinc, hdep⟩
        refine ⟨trivial, hpf, hpre, hne, hmd, (shouldInclude_iff fs p).1 hinc, ?_⟩
        unfold withinDepth at hdep
        exact of_decide_eq_true hdep
      · rintro ⟨_, hpf, hpre, hne, hmd, hinc, hdep⟩
        refine ⟨⟨hpf, ⟨⟨hpre, hne⟩, hmd⟩⟩, (shouldInclude_iff fs p).2 hinc, ?_⟩
        unfold withinDepth
        exact decide_eq_true hdep
    · rw [Bool.not_eq_true] at hd
      rw [hd]
      simp only [Bool.not_false, if_true]
      constructor
      · intro h; exact absurd h (List.not_mem_nil p)
      · rintro ⟨hcon, _⟩; exact absurd hcon (by simp)
  · unfold VFs.iterNotes
    by_cases hd : fs.dirExists (iterBase fs folder) = true
    · rw [hd]
      simp only [Bool.not_true, Bool.false_eq_true, if_false, if_true]
      exact List.Pairwise.filter _ (List.sorted_insertionSort pathLe _)
    · rw [Bool.not_eq_true] at hd
      rw [hd]
      simp only [Bool.not_false, if_true]
      exact List.sorted_nil
  · intro hd
    unfold VFs.iterNotes
    rw [hd]
    rfl

/-- Witness for C8 at a concrete vault: a note within depth is yielded (via the
characterization) and a nonexistent folder produces the empty list. -/
theorem vault_C8_iter_notes_spec_witness :
    ["v", "a.md"] ∈ fsC8.iterNotes "" true 2 ∧ fsC8.iterNotes "nope" true 2 = [] :=
  ⟨((vault_C8_iter_notes_spec fsC8 "" 2).1 ["v", "a.md"]).2
      ⟨by decide, by decide, by decide, by decide, by decide, by decide, by decide⟩,
    (vault_C8_iter_notes_spec fsC8 "nope" 2).2.2 (by decide)⟩

theorem dropWhile_eq_self_of_head (p : Char → Bool) (l : List Char)
    (h : ∀ c, l.head? = some c → p c = false) : l.dropWhile p = l := by
  cases l with
  | nil => rfl
  | cons c cs => rw [List.dropWhile_cons, h c rfl]; simp

theorem stripSlashes_eq_self (s : String)
    (hh : ∀ c, s.data.head? = some c → c ≠ '/')
    (hl : ∀ c, s.data.getLast? = some c → c ≠ '/') : stripSlashes s = s := by
  have e1 : s.data.dropWhile (fun c => c = '/') = s.data :=
    dropWhile_eq_self_of_head _ _ (fun c hc => decide_eq_false (hh c hc))
  have e2 : s.data.reverse.dropWhile (fun c => c = '/') = s.data.reverse :=
    dropWhile_eq_self_of_head _ _
      (fun c hc => decide_eq_false (hl c (by rwa [List.head?_reverse] at hc)))
  unfold stripSlashes
  rw [e1, e2, List.reverse_reverse]

/-- C9 (counterexample): when a reference `note` itself names an existing
extensionless file and `note.md` also exists, rule 1 returns the extensionless
file for `note` but `note.md` for the suffixed reference, so the two
resolutions differ although all hypotheses of the claim hold. -/
theorem vault_C9_counterexample :
    (fsC9.isFile (cand1 fsC9 "note") && fsC9.isWithinVault (cand1 fsC9 "note")) = true ∧
    fsC9.isFile (cand1 fsC9 "note.md") = true ∧
    pyEndsWith "note".data ".md".data = false ∧
    fsC9.resolvePath "note" = some ["v", "note"] ∧
    fsC9.resolvePath "note.md" = some ["v", "note.md"] ∧
    fsC9.resolvePath "note" ≠ fsC9.resolvePath "note.md" :=
  ⟨by decide, by decide, by decide, by decide, by decide, by decide⟩

/-- C9 (amended): for a reference `r` without the `.md` suffix that does not
itself pass the exact-path rule, while the suffixed candidate exists within the
vault, `resolve(r)` and `resolve(r ++ ".md")` return the same path (the rule-2
candidate of `r`, which is the rule-1 candidate of `r ++ ".md"`). -/
theorem vault_C9_md_equivalence (fs : VFs) (r : String)
    (hh : ∀ c, r.data.head? = some c → c ≠ '/')
    (hl : ∀ c, r.data.getLast? = some c → c ≠ '/')
    (hmd : pyEndsWith r.data ".md".data = false)
    (h1 : (fs.isFile (cand1 fs r) && fs.isWithinVault (cand1 fs r)) = false)
    (h2 : (fs.isFile (cand2 fs r) && fs.isWithinVault (cand2 fs r)) = true) :
    fs.resolvePath r = fs.resolvePath (r ++ ".md") ∧
    fs.resolvePath r = some (cand2 fs r) := by
  have hs2 : stripSlashes r = r := stripSlashes_eq_self r hh hl
  have hdata : (r ++ ".md").data = r.data ++ ".md".data := rfl
  have hh3 : ∀ c, (r ++ ".md").data.head? = some c → c ≠ '/' := by
    intro c hc
    rw [hdata] at hc
    cases hr : r.data with
    | nil =>
      rw [hr] at hc
      simp only [List.nil_append] at hc
      have : c = '.' := by
        have := hc
        simp only [List.head?_cons, Option.some.injEq] at this
        exact this.symm
      subst this; decide
    | cons x xs =>
      rw [hr] at hc
      simp only [List.cons_append, List.head?_cons, Option.some.injEq] at hc
      subst hc
      exact hh x (by rw [hr]; rfl)
  have hl3 : ∀ c, (r ++ ".md").data.getLast? = some c → c ≠ '/' := by
    intro c hc
    rw [hdata] at hc
    have hsplit : r.data ++ ".md".data = (r.data ++ ['.', 'm']) ++ ['d'] := by
      rw [List.append_assoc]; rfl
    rw [hsplit, List.getLast?_concat] at hc
    have : c = 'd' := by
      simp only [Option.some.injEq] at hc
      exact hc.symm
    subst this; decide
  have hs3 : stripSlashes (r ++ ".md") = r ++ ".md" := stripSlashes_eq_self _ hh3 hl3
  have hcand : cand1 fs (r ++ ".md") = cand2 fs r := by
    unfold cand1 cand2
    rw [hs3, hs2]
  have hmd2 : pyEndsWith (stripSlashes (r ++ ".md")).data ".md".data = true := by
    rw [hs3]
    unfold pyEndsWith
    exact List.isSuffixOf_iff_suffix.2 ⟨r.data, hdata.symm⟩
  have hR : fs.resolvePath (r ++ ".md") = some (cand2 fs r) := by
    unfold VFs.resolvePath
    rw [hcand, h2]
    simp
  have hL : fs.resolvePath r = some (cand2 fs r) := by
    unfold VFs.resolvePath
    rw [h1, hs2, hmd]
    rw [Bool.not_false, Bool.true_and, h2]
    simp
  exact ⟨hL.trans hR.symm, hL⟩

/-- Witness for C9 (amended): `Projects/spec` versus `Projects/spec.md` in a
vault holding only `Projects/spec.md`. -/
theorem vault_C9_md_equivalence_witness :
    pyEndsWith "w/spec".data ".md".data = false ∧
    ((⟨["v"], [["v", "w", "spec.md"]]⟩ : VFs).resolvePath "w/spec" =
      (⟨["v"], [["v", "w", "spec.md"]]⟩ : VFs).resolvePath "w/spec.md" ∧
     (⟨["v"], [["v", "w", "spec.md"]]⟩ : VFs).resolvePath "w/spec" =
      some (cand2 ⟨["v"], [["v", "w", "spec.md"]]⟩ "w/spec")) :=
  ⟨by decide,
    vault_C9_md_equivalence ⟨["v"], [["v", "w", "spec.md"]]⟩ "w/spec"
      (by
        intro c hc
        rw [show ("w/spec" : String).data.head? = some 'w' from rfl] at hc
        injection hc with h
        subst h
        decide)
      (by
        intro c hc
        rw [show ("w/spec" : String).data.getLast? = some 'c' from rfl] at hc
        injection hc with h
        subst h
        decide)
      (by decide) (by decide) (by decide)⟩

theorem dedupCIGo_lc_mem :
    ∀ (ts seen : List (List Char)) (t : List Char), t ∈ ts →
      t.map lc ∈ (dedupCIGo seen ts).map (fun u => u.map lc) ∨ t.map lc ∈ seen := by
  intro ts
  induction ts with
  | nil => intro seen t h; exact absurd h (List.not_mem_nil t)
  | cons u us ih =>
    intro seen t h
    unfold dedupCIGo
    by_cases hc : seen.contains (u.map lc) = true
    · rw [if_pos hc]
      rcases List.mem_cons.1 h with rfl | h2
      · right; exact List.elem_iff.1 hc
      · exact ih seen t h2
    · rw [if_neg hc]
      rcases List.mem_cons.1 h with rfl | h2
      · left; rw [List.map_cons]; exact List.mem_cons_self _ _
      · rcases ih (u.map lc :: seen) t h2 with h3 | h3
        · left; rw [List.map_cons]; exact List.mem_cons_of_mem _ h3
        · rcases List.mem_cons.1 h3 with h4 | h4
          · left; rw [List.map_cons, h4]; exact List.mem_cons_self _ _
          · right; exact h4

/-- C6 (counterexample): with two files `x/B.md` and `y/B.md` and a note `a.md`
containing `[[B]]`, `get_backlinks("y/B.md")` lists `a.md` (stem match), but
every link listed by `get_outgoing_links(a.md)` resolves to `x/B.md` (the
lexicographic tie-break), so no listed link resolves to `y/B.md`. -/
theorem links_C6_counterexample :
    getBacklinks vC6 ["v", "y", "B.md"] = [["v", "a.md"]] ∧
    vC6.notes.head? = some ⟨["v", "a.md"], some "[[B]]"⟩ ∧
    getOutgoingLinks vC6 "[[B]]" = [(['B'], some ["v", "x", "B.md"])] ∧
    ∀ tr ∈ getOutgoingLinks vC6 "[[B]]", tr.2 ≠ some ["v", "y", "B.md"] :=
  ⟨by decide, by decide, by decide, by decide⟩

/-- C6 (amended): if `get_backlinks(B)` lists note `A`, then `A` is a readable
vault note other than `B` whose content contains a wikilink target matching
`B`'s stem (case-insensitively, exactly or as a `/`-suffix), and
`get_outgoing_links(A)` lists that target among its deduplicated links — though
resolving it independently may yield a different file with the same basename. -/
theorem links_C6_backlink_symmetry (v : MVault) (B A : AbsPath)
    (h : A ∈ getBacklinks v B) :
    ∃ n ∈ v.notes, n.path = A ∧ n.path ≠ B ∧
      ∃ c, n.content = some c ∧
        ∃ t ∈ parseWikilinks c.data, backlinkTargetMatch t (stemOf B) = true ∧
          t.map lc ∈ (outgoingTargets c).map (fun u => u.map lc) := by
  rcases List.mem_filterMap.1 h with ⟨n, hn, hbe⟩
  refine ⟨n, hn, backlinkEntry_some_path hbe, ?_⟩
  unfold backlinkEntry at hbe
  split at hbe
  · exact absurd hbe (by simp)
  · next hne =>
    refine ⟨hne, ?_⟩
    split at hbe
    · exact absurd hbe (by simp)
    · next c hc =>
      split at hbe
      · next t hfind =>
        have hpt := List.find?_some hfind
        refine ⟨c, hc, t, List.mem_of_find?_eq_some hfind, by simpa using hpt, ?_⟩
        have hmem := List.mem_of_find?_eq_some hfind
        rcases dedupCIGo_lc_mem (parseWikilinks c.data) [] t hmem with h2 | h2
        · exact h2
        · exact absurd h2 (List.not_mem_nil _)
      · exact absurd hbe (by simp)

/-- Witness for C6 (amended) at the duplicate-basename vault. -/
theorem links_C6_backlink_symmetry_witness :
    ["v", "a.md"] ∈ getBacklinks vC6 ["v", "y", "B.md"] ∧
    ∃ n ∈ vC6.notes, n.path = ["v", "a.md"] ∧ n.path ≠ ["v", "y", "B.md"] ∧
      ∃ c, n.content = some c ∧
        ∃ t ∈ parseWikilinks c.data,
          backlinkTargetMatch t (stemOf ["v", "y", "B.md"]) = true ∧
          t.map lc ∈ (outgoingTargets c).map (fun u => u.map lc) :=
  ⟨by decide, links_C6_backlink_symmetry vC6 ["v", "y", "B.md"] ["v", "a.md"] (by decide)⟩


theorem takeNotIn_append (bad xs : List Char) (c : Char) (r : List Char)
    (hxs : ∀ x ∈ xs, x ∉ bad) (hc : c ∈ bad) :
    takeNotIn bad (xs ++ c :: r) = (xs, c :: r) := by
  induction xs with
  | nil =>
    rw [List.nil_append]
    unfold takeNotIn
    rw [if_pos hc]
  | cons x xs2 ih =>
    rw [List.cons_append]
    unfold takeNotIn
    rw [if_neg (hxs x (List.mem_cons_self x xs2))]
    rw [ih (fun y hy => hxs y (List.mem_cons_of_mem x hy))]

theorem takeNotIn_eq_append (bad : List Char) :
    ∀ l : List Char, (takeNotIn bad l).1 ++ (takeNotIn bad l).2 = l := by
  intro l
  induction l with
  | nil => rfl
  | cons c cs ih =>
    unfold takeNotIn
    by_cases hc : c ∈ bad
    · rw [if_pos hc]
      rfl
    · rw [if_neg hc]
      simpa using ih

theorem takeNotIn_snd_le (bad l : List Char) : (takeNotIn bad l).2.length ≤ l.length := by
  conv_rhs => rw [← takeNotIn_eq_append bad l]
  rw [List.length_append]
  omega

theorem afterHash_le (r : List Char) : (afterHash r).length ≤ r.length := by
  cases r with
  | nil => exact Nat.le_refl _
  | cons c r1 =>
    show (if c = '#' then (takeNotIn [']', '|'] r1).2 else c :: r1).length ≤ (c :: r1).length
    by_cases hc : c = '#'
    · rw [if_pos hc]
      have := takeNotIn_snd_le [']', '|'] r1
      simp only [List.length_cons]
      omega
    · rw [if_neg hc]

theorem afterAlias_le {r r2 : List Char} (h : afterAlias r = some r2) : r2.length ≤ r.length := by
  cases r with
  | nil =>
    have h2 : (some [] : Option (List Char)) = some r2 := h
    simp only [Option.some.injEq] at h2
    rw [← h2]
  | cons c r1 =>
    have h2 : (if c = '|' then
        (if (takeNotIn [']'] r1).1 = [] then none else some (takeNotIn [']'] r1).2)
      else some (c :: r1)) = some r2 := h
    by_cases hc : c = '|'
    · rw [if_pos hc] at h2
      split at h2
      · exact absurd h2 (by simp)
      · simp only [Option.some.injEq] at h2
        rw [← h2]
        have := takeNotIn_snd_le [']'] r1
        simp only [List.length_cons]
        omega
    · rw [if_neg hc] at h2
      simp only [Option.some.injEq] at h2
      rw [← h2]

theorem expectClose_lt {r2 rest : List Char} (h : expectClose r2 = some rest) :
    rest.length < r2.length := by
  cases r2 with
  | nil => exact absurd h (by simp [expectClose])
  | cons c1 rr =>
    cases rr with
    | nil => exact absurd h (by simp [expectClose])
    | cons c2 r3 =>
      have h2 : (if c1 = ']' ∧ c2 = ']' then some r3 else none) = some rest := h
      split at h2
      · simp only [Option.some.injEq] at h2
        rw [← h2]
        simp only [List.length_cons]
        omega
      · exact absurd h2 (by simp)

theorem matchLinkCore_length : ∀ (l1 : List Char) {t rest : List Char},
    matchLinkCore l1 = some (t, rest) → rest.length < l1.length := by
  intro l1 t rest h
  cases l1 with
  | nil => exact absurd h (by simp [matchLinkCore])
  | cons c1 l2 =>
    cases l2 with
    | nil => exact absurd h (by simp [matchLinkCore])
    | cons c2 r =>
      have h1 : (if c1 = '[' ∧ c2 = '[' then
          (if (takeNotIn [']', '|', '#', '^'] r).1 = [] then none
           else
             match afterAlias (afterHash (takeNotIn [']', '|', '#', '^'] r).2) with
             | some r2 =>
               match expectClose r2 with
               | some rest2 => some ((takeNotIn [']', '|', '#', '^'] r).1, rest2)
               | none => none
             | none => none)
          else none) = some (t, rest) := h
      split at h1
      · split at h1
        · exact absurd h1 (by simp)
        · cases hAA : afterAlias (afterHash (takeNotIn [']', '|', '#', '^'] r).2) with
          | none => rw [hAA] at h1; exact absurd h1 (by simp)
          | some r2 =>
            rw [hAA] at h1
            have h1b : (match expectClose r2 with
              | some rest2 => some ((takeNotIn [']', '|', '#', '^'] r).1, rest2)
              | none => none) = some (t, rest) := h1
            cases hEC : expectClose r2 with
            | none => rw [hEC] at h1b; exact absurd h1b (by simp)
            | some rest2 =>
              rw [hEC] at h1b
              have h1 := h1b
              simp only [Option.some.injEq, Prod.mk.injEq] at h1
              have h3 := expectClose_lt hEC
              have h4 := afterAlias_le hAA
              have h5 := afterHash_le (takeNotIn [']', '|', '#', '^'] r).2
              have h6 := takeNotIn_snd_le [']', '|', '#', '^'] r
              have h7 : rest = rest2 := h1.2.symm
              subst h7
              simp only [List.length_cons]
              omega
      · exact absurd h1 (by simp)

theorem matchLink_length : ∀ {l t rest : List Char},
    matchLink l = some (t, rest) → rest.length < l.length := by
  intro l t rest h
  cases l with
  | nil => exact absurd h (by simp [matchLink])
  | cons c r =>
    have h1 : (if c = '!' then matchLinkCore r else matchLinkCore (c :: r)) = some (t, rest) := h
    by_cases hc : c = '!'
    · rw [if_pos hc] at h1
      have := matchLinkCore_length r h1
      simp only [List.length_cons]
      omega
    · rw [if_neg hc] at h1
      exact matchLinkCore_length (c :: r) h1

theorem parseWikilinksGo_congr : ∀ (f1 f2 : Nat) (l : List Char), l.length ≤ f1 → l.length ≤ f2 →
    parseWikilinksGo f1 l = parseWikilinksGo f2 l := by
  intro f1
  induction f1 with
  | zero =>
    intro f2 l h1 _
    have : l = [] := List.length_eq_zero.1 (Nat.le_zero.1 h1)
    subst this
    cases f2 <;> rfl
  | succ f ih =>
    intro f2 l h1 h2
    cases l with
    | nil => cases f2 <;> rfl
    | cons c cs =>
      cases f2 with
      | zero => exact absurd h2 (by simp)
      | succ g =>
        show (match matchLink (c :: cs) with
          | some (t, rest) => t :: parseWikilinksGo f rest
          | none => parseWikilinksGo f cs) =
          (match matchLink (c :: cs) with
          | some (t, rest) => t :: parseWikilinksGo g rest
          | none => parseWikilinksGo g cs)
        cases hm : matchLink (c :: cs) with
        | none =>
          simp only []
          simp only [List.length_cons] at h1 h2
          exact ih g cs (by omega) (by omega)
        | some pr =>
          rcases pr with ⟨t, rest⟩
          simp only []
          have hlt := matchLink_length hm
          simp only [List.length_cons] at hlt h1 h2
          rw [ih g rest (by omega) (by omega)]

theorem parseWikilinks_eq_some {c : Char} {cs t rest : List Char}
    (h : matchLink (c :: cs) = some (t, rest)) :
    parseWikilinks (c :: cs) = t :: parseWikilinks rest := by
  unfold parseWikilinks
  show (match matchLink (c :: cs) with
    | some (t, rest) => t :: parseWikilinksGo cs.length rest
    | none => parseWikilinksGo cs.length cs) = t :: parseWikilinksGo rest.length rest
  rw [h]
  show t :: parseWikilinksGo cs.length rest = t :: parseWikilinksGo rest.length rest
  have hlt := matchLink_length h
  simp only [List.length_cons] at hlt
  rw [parseWikilinksGo_congr cs.length rest.length rest (by omega) (Nat.le_refl _)]

theorem parseWikilinks_eq_none {c : Char} {cs : List Char}
    (h : matchLink (c :: cs) = none) :
    parseWikilinks (c :: cs) = parseWikilinks cs := by
  unfold parseWikilinks
  show (match matchLink (c :: cs) with
    | some (t, rest) => t :: parseWikilinksGo cs.length rest
    | none => parseWikilinksGo cs.length cs) = parseWikilinksGo cs.length cs
  rw [h]

theorem matchLink_plain (t rest : List Char) (ht : t ≠ [])
    (htc : ∀ c ∈ t, c ∉ [']', '|', '#', '^']) :
    matchLink ('[' :: '[' :: (t ++ ']' :: ']' :: rest)) = some (t, rest) := by
  have htk : takeNotIn [']', '|', '#', '^'] (t ++ ']' :: ']' :: rest) =
      (t, ']' :: ']' :: rest) := takeNotIn_append _ t ']' (']' :: rest) htc (by decide)
  have h1 : matchLink ('[' :: '[' :: (t ++ ']' :: ']' :: rest)) =
      (if (takeNotIn [']', '|', '#', '^'] (t ++ ']' :: ']' :: rest)).1 = [] then none
       else
         match afterAlias (afterHash (takeNotIn [']', '|', '#', '^'] (t ++ ']' :: ']' :: rest)).2)
           with
         | some r2 =>
           match expectClose r2 with
           | some rest2 =>
             some ((takeNotIn [']', '|', '#', '^'] (t ++ ']' :: ']' :: rest)).1, rest2)
           | none => none
         | none => none) := rfl
  rw [h1, htk]
  show (if t = [] then none
    else
      match afterAlias (afterHash (']' :: ']' :: rest)) with
      | some r2 =>
        match expectClose r2 with
        | some rest2 => some (t, rest2)
        | none => none
      | none => none) = some (t, rest)
  rw [if_neg ht]
  have hah : afterHash (']' :: ']' :: rest) = ']' :: ']' :: rest := rfl
  have haa : afterAlias (']' :: ']' :: rest) = some (']' :: ']' :: rest) := rfl
  rw [hah, haa]
  show (match expectClose (']' :: ']' :: rest) with
    | some rest2 => some (t, rest2)
    | none => none) = some (t, rest)
  have hec : expectClose (']' :: ']' :: rest) = some rest := rfl
  rw [hec]

theorem matchLink_alias (t a rest : List Char) (ht : t ≠ [])
    (htc : ∀ c ∈ t, c ∉ [']', '|', '#', '^']) (ha : a ≠ []) (hac : ∀ c ∈ a, c ∉ [']']) :
    matchLink ('[' :: '[' :: (t ++ '|' :: (a ++ ']' :: ']' :: rest))) = some (t, rest) := by
  have htk : takeNotIn [']', '|', '#', '^'] (t ++ '|' :: (a ++ ']' :: ']' :: rest)) =
      (t, '|' :: (a ++ ']' :: ']' :: rest)) :=
    takeNotIn_append _ t '|' (a ++ ']' :: ']' :: rest) htc (by decide)
  have h1 : matchLink ('[' :: '[' :: (t ++ '|' :: (a ++ ']' :: ']' :: rest))) =
      (if (takeNotIn [']', '|', '#', '^'] (t ++ '|' :: (a ++ ']' :: ']' :: rest))).1 = []
       then none
       else
         match afterAlias (afterHash
           (takeNotIn [']', '|', '#', '^'] (t ++ '|' :: (a ++ ']' :: ']' :: rest))).2) with
         | some r2 =>
           match expectClose r2 with
           | some rest2 =>
             some ((takeNotIn [']', '|', '#', '^'] (t ++ '|' :: (a ++ ']' :: ']' :: rest))).1,
               rest2)
           | none => none
         | none => none) := rfl
  rw [h1, htk]
  show (if t = [] then none
    else
      match afterAlias (afterHash ('|' :: (a ++ ']' :: ']' :: rest))) with
      | some r2 =>
        match expectClose r2 with
        | some rest2 => some (t, rest2)
        | none => none
      | none => none) = some (t, rest)
  rw [if_neg ht]
  have hah : afterHash ('|' :: (a ++ ']' :: ']' :: rest)) = '|' :: (a ++ ']' :: ']' :: rest) := rfl
  have htk2 : takeNotIn [']'] (a ++ ']' :: ']' :: rest) = (a, ']' :: ']' :: rest) :=
    takeNotIn_append _ a ']' (']' :: rest) hac (by decide)
  have haa0 : afterAlias ('|' :: (a ++ ']' :: ']' :: rest)) =
      (if (takeNotIn [']'] (a ++ ']' :: ']' :: rest)).1 = [] then none
       else some (takeNotIn [']'] (a ++ ']' :: ']' :: rest)).2) := rfl
  have haa : afterAlias ('|' :: (a ++ ']' :: ']' :: rest)) = some (']' :: ']' :: rest) := by
    rw [haa0, htk2]
    show (if a = [] then none else some (']' :: ']' :: rest)) = some (']' :: ']' :: rest)
    rw [if_neg ha]
  rw [hah, haa]
  show (match expectClose (']' :: ']' :: rest) with
    | some rest2 => some (t, rest2)
    | none => none) = some (t, rest)
  have hec : expectClose (']' :: ']' :: rest) = some rest := rfl
  rw [hec]

theorem matchLink_heading (t q rest : List Char) (ht : t ≠ [])
    (htc : ∀ c ∈ t, c ∉ [']', '|', '#', '^']) (hqc : ∀ c ∈ q, c ∉ [']', '|']) :
    matchLink ('[' :: '[' :: (t ++ '#' :: (q ++ ']' :: ']' :: rest))) = some (t, rest) := by
  have htk : takeNotIn [']', '|', '#', '^'] (t ++ '#' :: (q ++ ']' :: ']' :: rest)) =
      (t, '#' :: (q ++ ']' :: ']' :: rest)) :=
    takeNotIn_append _ t '#' (q ++ ']' :: ']' :: rest) htc (by decide)
  have h1 : matchLink ('[' :: '[' :: (t ++ '#' :: (q ++ ']' :: ']' :: rest))) =
      (if (takeNotIn [']', '|', '#', '^'] (t ++ '#' :: (q ++ ']' :: ']' :: rest))).1 = []
       then none
       else
         match afterAlias (afterHash
           (takeNotIn [']', '|', '#', '^'] (t ++ '#' :: (q ++ ']' :: ']' :: rest))).2) with
         | some r2 =>
           match expectClose r2 with
           | some rest2 =>
             some ((takeNotIn [']', '|', '#', '^'] (t ++ '#' :: (q ++ ']' :: ']' :: rest))).1,
               rest2)
           | none => none
         | none => none) := rfl
  rw [h1, htk]
  show (if t = [] then none
    else
      match afterAlias (afterHash ('#' :: (q ++ ']' :: ']' :: rest))) with
      | some r2 =>
        match expectClose r2 with
        | some rest2 => some (t, rest2)
        | none => none
      | none => none) = some (t, rest)
  rw [if_neg ht]
  have htk2 : takeNotIn [']', '|'] (q ++ ']' :: ']' :: rest) = (q, ']' :: ']' :: rest) :=
    takeNotIn_append _ q ']' (']' :: rest) hqc (by decide)
  have hah0 : afterHash ('#' :: (q ++ ']' :: ']' :: rest)) =
      (takeNotIn [']', '|'] (q ++ ']' :: ']' :: rest)).2 := rfl
  have hah : afterHash ('#' :: (q ++ ']' :: ']' :: rest)) = ']' :: ']' :: rest := by
    rw [hah0, htk2]
  have haa : afterAlias (']' :: ']' :: rest) = some (']' :: ']' :: rest) := rfl
  rw [hah, haa]
  show (match expectClose (']' :: ']' :: rest) with
    | some rest2 => some (t, rest2)
    | none => none) = some (t, rest)
  have hec : expectClose (']' :: ']' :: rest) = some rest := rfl
  rw [hec]

/-- C5 (counterexample): the extraction regex's target class also excludes `^`,
so the token `[[a^b]]` — whose target under the claim's description would be
`a^b` (everything before the first of `|`, `#`, `]]`) — is not matched at all:
extraction returns the empty list, not `["a^b"]`. -/
theorem links_C5_counterexample :
    parseWikilinksStr "[[a^b]]" = [] ∧ parseWikilinksStr "[[a^b]]" ≠ ["a^b"] :=
  ⟨by decide, by decide⟩

/-- C5 (amended): extraction scans left to right and emits, in textual order
with duplicates, the target of each token it matches; a token at the current
position with target `t` (nonempty, containing none of `]`, `|`, `#`, `^`),
optionally followed by a `#`-qualifier (free of `]`, `|`) or a nonempty
`|`-alias (free of `]`), contributes exactly `t` and scanning resumes after the
closing brackets; the spec's round-trip example extracts `["A", "B", "C"]`, and
a token whose would-be target contains `^` (e.g. `[[a^b]]`) is skipped. -/
theorem links_C5_extraction :
    parseWikilinksStr "[[A]] and [[B|alias]] and [[C#heading]]" = ["A", "B", "C"] ∧
    parseWikilinksStr "[[a^b]] and [[ok]]" = ["ok"] ∧
    (∀ t rest, t ≠ [] → (∀ c ∈ t, c ∉ [']', '|', '#', '^']) →
      parseWikilinks ('[' :: '[' :: (t ++ ']' :: ']' :: rest)) = t :: parseWikilinks rest) ∧
    (∀ t a rest, t ≠ [] → (∀ c ∈ t, c ∉ [']', '|', '#', '^']) → a ≠ [] → (∀ c ∈ a, c ∉ [']']) →
      parseWikilinks ('[' :: '[' :: (t ++ '|' :: (a ++ ']' :: ']' :: rest))) =
        t :: parseWikilinks rest) ∧
    (∀ t q rest, t ≠ [] → (∀ c ∈ t, c ∉ [']', '|', '#', '^']) → (∀ c ∈ q, c ∉ [']', '|']) →
      parseWikilinks ('[' :: '[' :: (t ++ '#' :: (q ++ ']' :: ']' :: rest))) =
        t :: parseWikilinks rest) := by
  refine ⟨by decide, by decide, ?_, ?_, ?_⟩
  · intro t rest ht htc
    exact parseWikilinks_eq_some (matchLink_plain t rest ht htc)
  · intro t a rest ht htc ha hac
    exact parseWikilinks_eq_some (matchLink_alias t a rest ht htc ha hac)
  · intro t q rest ht htc hqc
    exact parseWikilinks_eq_some (matchLink_heading t q rest ht htc hqc)

/-- Witness for C5 (amended): the three token equations applied at concrete
tokens. -/
theorem links_C5_extraction_witness :
    ((['A'] : List Char) ≠ [] ∧ ∀ c ∈ (['A'] : List Char), c ∉ [']', '|', '#', '^']) ∧
    parseWikilinks ('[' :: '[' :: (['A'] ++ ']' :: ']' :: [])) = ['A'] :: parseWikilinks [] ∧
    parseWikilinks ('[' :: '[' :: (['B'] ++ '|' :: (['x'] ++ ']' :: ']' :: []))) =
      ['B'] :: parseWikilinks [] ∧
    parseWikilinks ('[' :: '[' :: (['C'] ++ '#' :: (['h'] ++ ']' :: ']' :: []))) =
      ['C'] :: parseWikilinks [] :=
  ⟨⟨by decide, by decide⟩,
    links_C5_extraction.2.2.1 ['A'] [] (by decide) (by decide),
    links_C5_extraction.2.2.2.1 ['B'] ['x'] [] (by decide) (by decide) (by decide) (by decide),
    links_C5_extraction.2.2.2.2 ['C'] ['h'] [] (by decide) (by decide) (by decide)⟩

theorem stripCI_length : ∀ {os l r : List Char}, stripCI os l = some r → r.length ≤ l.length := by
  intro os
  induction os with
  | nil =>
    intro l r h
    have h2 : some l = some r := h
    simp only [Option.some.injEq] at h2
    rw [← h2]
  | cons o os2 ih =>
    intro l r h
    cases l with
    | nil => exact absurd h (by simp [stripCI])
    | cons c cs =>
      have h2 : (if lc c = lc o then stripCI os2 cs else none) = some r := h
      split at h2
      · have := ih h2
        simp only [List.length_cons]
        omega
      · exact absurd h2 (by simp)

theorem stripCI_decomp : ∀ {os l r : List Char}, stripCI os l = some r →
    ∃ pre, l = pre ++ r ∧ pre.map lc = os.map lc := by
  intro os
  induction os with
  | nil =>
    intro l r h
    have h2 : some l = some r := h
    simp only [Option.some.injEq] at h2
    exact ⟨[], by rw [List.nil_append, h2], rfl⟩
  | cons o os2 ih =>
    intro l r h
    cases l with
    | nil => exact absurd h (by simp [stripCI])
    | cons c cs =>
      have h2 : (if lc c = lc o then stripCI os2 cs else none) = some r := h
      split at h2
      · next heq =>
        rcases ih h2 with ⟨pre, hpre, hmap⟩
        exact ⟨c :: pre, by rw [List.cons_append, hpre],
          by rw [List.map_cons, List.map_cons, hmap, heq]⟩
      · exact absurd h2 (by simp)

theorem delimAt_eq (c : Char) (r : List Char) :
    delimAt (c :: r) = (if c = '|' then some (['|'], r)
      else if c = '#' then some (['#'], r)
      else if c = ']' then delimClose r
      else none) := rfl

theorem delimClose_some : ∀ {r : List Char} {d r2 : List Char},
    delimClose r = some (d, r2) → d = [']', ']'] ∧ r = ']' :: r2 := by
  intro r d r2 h
  cases r with
  | nil => exact absurd h (by simp [delimClose])
  | cons c2 r3 =>
    have e : delimClose (c2 :: r3) = (if c2 = ']' then some ([']', ']'], r3) else none) := rfl
    rw [e] at h
    split at h
    · next hc =>
      simp only [Option.some.injEq, Prod.mk.injEq] at h
      subst hc
      exact ⟨h.1.symm, by rw [h.2]⟩
    · exact absurd h (by simp)

theorem delimAt_some : ∀ {l d r : List Char}, delimAt l = some (d, r) →
    isDelim d ∧ l = d ++ r := by
  intro l d r h
  cases l with
  | nil => exact absurd h (by simp [delimAt])
  | cons c rr =>
    rw [delimAt_eq] at h
    by_cases h3 : c = '|'
    · rw [if_pos h3] at h
      simp only [Option.some.injEq, Prod.mk.injEq] at h
      subst h3
      rw [← h.1, ← h.2]
      exact ⟨Or.inr (Or.inl rfl), rfl⟩
    · rw [if_neg h3] at h
      by_cases h4 : c = '#'
      · rw [if_pos h4] at h
        simp only [Option.some.injEq, Prod.mk.injEq] at h
        subst h4
        rw [← h.1, ← h.2]
        exact ⟨Or.inr (Or.inr rfl), rfl⟩
      · rw [if_neg h4] at h
        by_cases h5 : c = ']'
        · rw [if_pos h5] at h
          rcases delimClose_some h with ⟨hd, hr⟩
          subst h5 hd
          rw [hr]
          exact ⟨Or.inl rfl, rfl⟩
        · rw [if_neg h5] at h
          exact absurd h (by simp)

theorem delimAt_none_of_head {c : Char} (r : List Char)
    (h1 : c ≠ '|') (h2 : c ≠ '#') (h3 : c ≠ ']') : delimAt (c :: r) = none := by
  rw [delimAt_eq, if_neg h1, if_neg h2, if_neg h3]

theorem isDelim_chars {d : List Char} (h : isDelim d) : d ≠ [] ∧ ∀ c ∈ d, c ∈ wikiSpecials ∧ c ≠ '[' := by
  rcases h with h | h | h <;> subst h <;> exact ⟨by simp, by decide⟩

theorem lc_notSpecial_ne {x : Char} (h : lc x ∉ wikiSpecials) :
    x ≠ '[' ∧ x ≠ ']' ∧ x ≠ '|' ∧ x ≠ '#' := by
  refine ⟨?_, ?_, ?_, ?_⟩ <;> intro he <;> subst he <;> exact h (by decide)

theorem stripDelim_cons (os l : List Char) (o c : Char) :
    stripDelim (o :: os) (c :: l) = if lc c = lc o then stripDelim os l else none := by
  have e : stripDelim (o :: os) (c :: l) =
      (match (if lc c = lc o then stripCI os l else none) with
        | some r => delimAt r
        | none => none) := rfl
  rw [e]
  by_cases h : lc c = lc o
  · rw [if_pos h, if_pos h]
    rfl
  · rw [if_neg h, if_neg h]

theorem matchTok_length : ∀ {old l d rest : List Char},
    matchTok old l = some (d, rest) → rest.length < l.length := by
  intro old l d rest h
  cases l with
  | nil => exact absurd h (by simp [matchTok])
  | cons c1 l2 =>
    cases l2 with
    | nil => exact absurd h (by simp [matchTok])
    | cons c2 r =>
      have h2 : (if c1 = '[' ∧ c2 = '[' then stripDelim old r else none) = some (d, rest) := h
      split at h2
      · unfold stripDelim at h2
        split at h2
        · next r2 hstrip =>
          have hle := stripCI_length hstrip
          rcases delimAt_some h2 with ⟨hd, he⟩
          have : r2.length = d.length + rest.length := by rw [he, List.length_append]
          have hdlen : 1 ≤ d.length := by
            rcases isDelim_chars hd with ⟨hne, _⟩
            cases d with
            | nil => exact absurd rfl hne
            | cons _ _ => simp
          simp only [List.length_cons]
          omega
        · exact absurd h2 (by simp)
      · exact absurd h2 (by simp)

theorem matchTok_none_head {old : List Char} {c : Char} (l : List Char) (hc : c ≠ '[') :
    matchTok old (c :: l) = none := by
  cases l with
  | nil => rfl
  | cons c2 r =>
    have e : matchTok old (c :: c2 :: r) =
        (if c = '[' ∧ c2 = '[' then stripDelim old r else none) := rfl
    rw [e, if_neg (fun hand => hc hand.1)]

theorem matchTok_none_second {old : List Char} {c1 : Char} (l : List Char)
    (hc : ∀ c, l.head? = some c → c ≠ '[') : matchTok old (c1 :: l) = none := by
  cases l with
  | nil => rfl
  | cons c2 r =>
    have e : matchTok old (c1 :: c2 :: r) =
        (if c1 = '[' ∧ c2 = '[' then stripDelim old r else none) := rfl
    rw [e, if_neg (fun hand => hc c2 rfl hand.2)]

theorem matchTok_some_decomp {old l d rest : List Char} (h : matchTok old l = some (d, rest)) :
    ∃ old2, l = '[' :: '[' :: (old2 ++ d ++ rest) ∧ old2.map lc = old.map lc ∧ isDelim d := by
  cases l with
  | nil => exact absurd h (by simp [matchTok])
  | cons c1 l2 =>
    cases l2 with
    | nil => exact absurd h (by simp [matchTok])
    | cons c2 r =>
      have h2 : (if c1 = '[' ∧ c2 = '[' then stripDelim old r else none) = some (d, rest) := h
      split at h2
      · next hbr =>
        unfold stripDelim at h2
        split at h2
        · next r2 hstrip =>
          rcases stripCI_decomp hstrip with ⟨pre, hpre, hmap⟩
          rcases delimAt_some h2 with ⟨hd, he⟩
          refine ⟨pre, ?_, hmap, hd⟩
          rw [hbr.1, hbr.2, hpre, he, List.append_assoc]
        · exact absurd h2 (by simp)
      · exact absurd h2 (by simp)

theorem subLinksGo_congr (old new : List Char) :
    ∀ (f1 f2 : Nat) (l : List Char), l.length ≤ f1 → l.length ≤ f2 →
      subLinksGo old new f1 l = subLinksGo old new f2 l := by
  intro f1
  induction f1 with
  | zero =>
    intro f2 l h1 _
    have : l = [] := List.length_eq_zero.1 (Nat.le_zero.1 h1)
    subst this
    cases f2 <;> rfl
  | succ f ih =>
    intro f2 l h1 h2
    cases l with
    | nil => cases f2 <;> rfl
    | cons c cs =>
      cases f2 with
      | zero => exact absurd h2 (by simp)
      | succ g =>
        show (match matchTok old (c :: cs) with
          | some (d, rest) => '[' :: '[' :: (new ++ d ++ subLinksGo old new f rest)
          | none => c :: subLinksGo old new f cs) =
          (match matchTok old (c :: cs) with
          | some (d, rest) => '[' :: '[' :: (new ++ d ++ subLinksGo old new g rest)
          | none => c :: subLinksGo old new g cs)
        cases hm : matchTok old (c :: cs) with
        | none =>
          simp only []
          simp only [List.length_cons] at h1 h2
          rw [ih g cs (by omega) (by omega)]
        | some pr =>
          rcases pr with ⟨d, rest⟩
          simp only []
          have hlt := matchTok_length hm
          simp only [List.length_cons] at hlt h1 h2
          rw [ih g rest (by omega) (by omega)]

theorem subLinks_eq_some {old new : List Char} {c : Char} {cs d rest : List Char}
    (h : matchTok old (c :: cs) = some (d, rest)) :
    subLinks old new (c :: cs) = '[' :: '[' :: (new ++ d ++ subLinks old new rest) := by
  unfold subLinks
  show (match matchTok old (c :: cs) with
    | some (d, rest) => '[' :: '[' :: (new ++ d ++ subLinksGo old new cs.length rest)
    | none => c :: subLinksGo old new cs.length cs) =
    '[' :: '[' :: (new ++ d ++ subLinksGo old new rest.length rest)
  rw [h]
  show '[' :: '[' :: (new ++ d ++ subLinksGo old new cs.length rest) =
    '[' :: '[' :: (new ++ d ++ subLinksGo old new rest.length rest)
  have hlt := matchTok_length h
  simp only [List.length_cons] at hlt
  rw [subLinksGo_congr old new cs.length rest.length rest (by omega) (Nat.le_refl _)]

theorem subLinks_eq_none {old new : List Char} {c : Char} {cs : List Char}
    (h : matchTok old (c :: cs) = none) :
    subLinks old new (c :: cs) = c :: subLinks old new cs := by
  unfold subLinks
  show (match matchTok old (c :: cs) with
    | some (d, rest) => '[' :: '[' :: (new ++ d ++ subLinksGo old new cs.length rest)
    | none => c :: subLinksGo old new cs.length cs) =
    c :: subLinksGo old new cs.length cs
  rw [h]

theorem hasTok_cons (old : List Char) (c : Char) (cs : List Char) :
    hasTok old (c :: cs) = ((matchTok old (c :: cs)).isSome || hasTok old cs) := rfl

theorem hasTok_append_nobrack (old : List Char) : ∀ (xs t : List Char), (∀ x ∈ xs, x ≠ '[') →
    hasTok old (xs ++ t) = hasTok old t := by
  intro xs
  induction xs with
  | nil => intro t _; rw [List.nil_append]
  | cons x xs2 ih =>
    intro t hx
    rw [List.cons_append, hasTok_cons, matchTok_none_head _ (hx x (List.mem_cons_self x xs2))]
    simp only [Option.isSome_none, Bool.false_or]
    exact ih t (fun y hy => hx y (List.mem_cons_of_mem x hy))

theorem stripDelim_none_chunk {d : List Char} (hd : isDelim d) :
    ∀ (os ns t : List Char), os.map lc ≠ ns.map lc →
      (∀ c ∈ os, lc c ∉ wikiSpecials) → (∀ c ∈ ns, c ∉ wikiSpecials) →
      stripDelim os (ns ++ d ++ t) = none := by
  intro os
  induction os with
  | nil =>
    intro ns t hne _ hns
    cases ns with
    | nil => exact absurd rfl hne
    | cons n ns2 =>
      have e : stripDelim [] ((n :: ns2) ++ d ++ t) = delimAt ((n :: ns2) ++ d ++ t) := rfl
      have hstep : (n :: ns2) ++ d ++ t = n :: (ns2 ++ d ++ t) := by simp
      rw [e, hstep]
      have hn := hns n (List.mem_cons_self n ns2)
      exact delimAt_none_of_head _ (fun h => hn (h ▸ by decide)) (fun h => hn (h ▸ by decide))
        (fun h => hn (h ▸ by decide))
  | cons o os2 ih =>
    intro ns t hne hos hns
    have hlo := hos o (List.mem_cons_self o os2)
    cases ns with
    | nil =>
      have hblock : ∀ (c : Char) (l : List Char), c ∈ wikiSpecials → lc c = c →
          stripDelim (o :: os2) (c :: l) = none := by
        intro c l hcs hlc
        rw [stripDelim_cons]
        rw [if_neg (fun he => hlo (by rw [← he, hlc]; exact hcs))]
      rcases hd with h | h | h <;> subst h
      · have hstep : ([] : List Char) ++ [']', ']'] ++ t = ']' :: (']' :: t) := by simp
        rw [hstep]
        exact hblock ']' (']' :: t) (by decide) (by decide)
      · have hstep : ([] : List Char) ++ ['|'] ++ t = '|' :: t := by simp
        rw [hstep]
        exact hblock '|' t (by decide) (by decide)
      · have hstep : ([] : List Char) ++ ['#'] ++ t = '#' :: t := by simp
        rw [hstep]
        exact hblock '#' t (by decide) (by decide)
    | cons n ns2 =>
      have hstep : (n :: ns2) ++ d ++ t = n :: (ns2 ++ d ++ t) := by simp
      rw [hstep, stripDelim_cons]
      by_cases hln : lc n = lc o
      · rw [if_pos hln]
        refine ih ns2 t ?_ (fun c hc => hos c (List.mem_cons_of_mem o hc))
          (fun c hc => hns c (List.mem_cons_of_mem n hc))
        intro hmapeq
        exact hne (by rw [List.map_cons, List.map_cons, hmapeq, hln])
      · rw [if_neg hln]

theorem head_ne_bracket_append {new d : List Char} (t : List Char) (hnew : goodNew new)
    (hd : isDelim d) : ∀ c, (new ++ d ++ t).head? = some c → c ≠ '[' := by
  intro c hc
  cases new with
  | nil =>
    rcases hd with h | h | h <;> subst h <;>
      simp only [List.nil_append, List.cons_append, List.head?_cons, Option.some.injEq] at hc <;>
      subst hc <;> decide
  | cons n nrest =>
    simp only [List.cons_append, List.head?_cons, Option.some.injEq] at hc
    subst hc
    exact fun h => hnew n (List.mem_cons_self n nrest) (h ▸ by decide)

theorem hasTok_chunk {old new d : List Char} (hold : goodOld old) (hnew : goodNew new)
    (hne : old.map lc ≠ new.map lc) (hd : isDelim d) (t : List Char) :
    hasTok old ('[' :: '[' :: (new ++ d ++ t)) = hasTok old t := by
  rw [hasTok_cons]
  have e1 : matchTok old ('[' :: '[' :: (new ++ d ++ t)) = stripDelim old (new ++ d ++ t) := by
    have e : matchTok old ('[' :: '[' :: (new ++ d ++ t)) =
        (if ('[' : Char) = '[' ∧ ('[' : Char) = '[' then stripDelim old (new ++ d ++ t)
         else none) := rfl
    rw [e, if_pos ⟨rfl, rfl⟩]
  rw [e1, stripDelim_none_chunk hd old new t hne hold.2 hnew]
  simp only [Option.isSome_none, Bool.false_or]
  rw [hasTok_cons, matchTok_none_second _ (head_ne_bracket_append t hnew hd)]
  simp only [Option.isSome_none, Bool.false_or]
  apply hasTok_append_nobrack
  intro x hx
  rcases List.mem_append.1 hx with hx2 | hx2
  · exact fun h => hnew x hx2 (h ▸ by decide)
  · exact ((isDelim_chars hd).2 x hx2).2

theorem delimClose_eq (x : Char) (xs : List Char) :
    delimClose (x :: xs) = if x = ']' then some ([']', ']'], xs) else none := rfl

theorem stripDelim_subLinks_transfer {old new : List Char} (hold : goodOld old)
    (hnew : goodNew new) (hne : old.map lc ≠ new.map lc) :
    ∀ (n : Nat) (l os : List Char), l.length ≤ n → (∀ c ∈ os, lc c ∉ wikiSpecials) →
      (stripDelim os (subLinks old new l)).isSome = true →
      (stripDelim os l).isSome = true := by
  intro n
  induction n with
  | zero =>
    intro l os hl _ h
    have hn : l = [] := List.length_eq_zero.1 (Nat.le_zero.1 hl)
    subst hn
    exact h
  | succ m ih =>
    intro l os hl hos h
    cases l with
    | nil => exact h
    | cons c cs =>
      cases hm : matchTok old (c :: cs) with
      | some pr =>
        rcases pr with ⟨d, rest⟩
        rw [subLinks_eq_some hm] at h
        exfalso
        cases os with
        | nil =>
          have e : stripDelim [] ('[' :: '[' :: (new ++ d ++ subLinks old new rest)) =
              delimAt ('[' :: '[' :: (new ++ d ++ subLinks old new rest)) := rfl
          rw [e, delimAt_none_of_head _ (by decide) (by decide) (by decide)] at h
          simp at h
        | cons o os2 =>
          rw [stripDelim_cons] at h
          rw [if_neg (fun he => hos o (List.mem_cons_self o os2) (by rw [← he]; decide))] at h
          simp at h
      | none =>
        rw [subLinks_eq_none hm] at h
        cases os with
        | nil =>
          have e : stripDelim [] (c :: subLinks old new cs) =
              delimAt (c :: subLinks old new cs) := rfl
          have e2 : stripDelim ([] : List Char) (c :: cs) = delimAt (c :: cs) := rfl
          rw [e] at h
          rw [e2]
          by_cases hc1 : c = '|'
          · rw [delimAt_eq, if_pos hc1]; rfl
          · by_cases hc2 : c = '#'
            · rw [delimAt_eq, if_neg hc1, if_pos hc2]; rfl
            · by_cases hc3 : c = ']'
              · rw [delimAt_eq, if_neg hc1, if_neg hc2, if_pos hc3] at h ⊢
                cases cs with
                | nil =>
                  have hsub : subLinks old new ([] : List Char) = [] := rfl
                  rw [hsub] at h
                  simp [delimClose] at h
                | cons c2 cs2 =>
                  cases hm2 : matchTok old (c2 :: cs2) with
                  | some pr2 =>
                    rcases pr2 with ⟨d2, r2⟩
                    rw [subLinks_eq_some hm2, delimClose_eq, if_neg (by decide)] at h
                    simp at h
                  | none =>
                    rw [subLinks_eq_none hm2, delimClose_eq] at h
                    rw [delimClose_eq]
                    by_cases hc4 : c2 = ']'
                    · rw [if_pos hc4]; rfl
                    · rw [if_neg hc4] at h; simp at h
              · rw [delimAt_none_of_head _ hc1 hc2 hc3] at h
                simp at h
        | cons o os2 =>
          rw [stripDelim_cons] at h
          rw [stripDelim_cons]
          by_cases hlc : lc c = lc o
          · rw [if_pos hlc] at h ⊢
            have hlen : cs.length ≤ m := by simp only [List.length_cons] at hl; omega
            exact ih cs os2 hlen (fun x hx => hos x (List.mem_cons_of_mem o hx)) h
          · rw [if_neg hlc] at h
            simp at h

theorem matchTok_subLinks_none {old new : List Char} (hold : goodOld old) (hnew : goodNew new)
    (hne : old.map lc ≠ new.map lc) :
    ∀ (c : Char) (cs : List Char), matchTok old (c :: cs) = none →
      matchTok old (c :: subLinks old new cs) = none := by
  intro c cs h
  cases cs with
  | nil => rfl
  | cons c2 cs2 =>
    cases hm : matchTok old (c2 :: cs2) with
    | some pr =>
      rcases pr with ⟨d, rest⟩
      rw [subLinks_eq_some hm]
      have e : matchTok old (c :: '[' :: '[' :: (new ++ d ++ subLinks old new rest)) =
          (if c = '[' ∧ ('[' : Char) = '[' then
            stripDelim old ('[' :: (new ++ d ++ subLinks old new rest))
          else none) := rfl
      rw [e]
      by_cases hc : c = '['
      · rw [if_pos ⟨hc, rfl⟩]
        obtain ⟨o, os, rfl⟩ : ∃ o os, old = o :: os := by
          cases old with
          | nil => exact absurd rfl hold.1
          | cons o os => exact ⟨o, os, rfl⟩
        rw [stripDelim_cons]
        rw [if_neg (fun he => hold.2 o (List.mem_cons_self o os) (by rw [← he]; decide))]
      · rw [if_neg (fun ha => hc ha.1)]
    | none =>
      rw [subLinks_eq_none hm]
      have e : matchTok old (c :: c2 :: subLinks old new cs2) =
          (if c = '[' ∧ c2 = '[' then stripDelim old (subLinks old new cs2) else none) := rfl
      rw [e]
      by_cases hb : c = '[' ∧ c2 = '['
      · rw [if_pos hb]
        cases hsd : stripDelim old (subLinks old new cs2) with
        | none => rfl
        | some pr2 =>
          exfalso
          have h1 : (stripDelim old (subLinks old new cs2)).isSome = true := by rw [hsd]; rfl
          have h2 := stripDelim_subLinks_transfer hold hnew hne cs2.length cs2 old
            (Nat.le_refl _) hold.2 h1
          have e2 : matchTok old (c :: c2 :: cs2) =
              (if c = '[' ∧ c2 = '[' then stripDelim old cs2 else none) := rfl
          rw [e2, if_pos hb] at h
          rw [h] at h2
          simp at h2
      · rw [if_neg hb]

theorem hasTok_subLinks {old new : List Char} (hold : goodOld old) (hnew : goodNew new)
    (hne : old.map lc ≠ new.map lc) : ∀ (n : Nat) (cs : List Char), cs.length ≤ n →
      hasTok old (subLinks old new cs) = false := by
  intro n
  induction n with
  | zero =>
    intro cs h
    have hn : cs = [] := List.length_eq_zero.1 (Nat.le_zero.1 h)
    subst hn
    rfl
  | succ m ih =>
    intro cs hl
    cases cs with
    | nil => rfl
    | cons c cs2 =>
      cases hm : matchTok old (c :: cs2) with
      | some pr =>
        rcases pr with ⟨d, rest⟩
        rw [subLinks_eq_some hm]
        rcases matchTok_some_decomp hm with ⟨old2, _, _, hd⟩
        rw [hasTok_chunk hold hnew hne hd]
        have hlt := matchTok_length hm
        simp only [List.length_cons] at hlt hl
        exact ih rest (by omega)
      | none =>
        rw [subLinks_eq_none hm, hasTok_cons, matchTok_subLinks_none hold hnew hne c cs2 hm]
        simp only [Option.isSome_none, Bool.false_or]
        simp only [List.length_cons] at hl
        exact ih cs2 (by omega)

theorem tokDAt_none {old d a l : List Char} (h : matchTok old l = none) :
    tokDAt old d a l = false := by
  unfold tokDAt
  rw [h]

theorem tokDAt_some {old d a l d2 rest : List Char} (h : matchTok old l = some (d2, rest)) :
    tokDAt old d a l = (d2 == d && a.isPrefixOf rest) := by
  unfold tokDAt
  rw [h]

theorem hasTokD_cons (old d a : List Char) (c : Char) (cs : List Char) :
    hasTokD old d a (c :: cs) = (tokDAt old d a (c :: cs) || hasTokD old d a cs) := rfl

theorem hasTokD_append_nobrack (old d a : List Char) :
    ∀ (xs t : List Char), (∀ x ∈ xs, x ≠ '[') →
      hasTokD old d a (xs ++ t) = hasTokD old d a t := by
  intro xs
  induction xs with
  | nil => intro t _; rw [List.nil_append]
  | cons x xs2 ih =>
    intro t hx
    rw [List.cons_append, hasTokD_cons,
      tokDAt_none (matchTok_none_head _ (hx x (List.mem_cons_self x xs2)))]
    simp only [Bool.false_or]
    exact ih t (fun y hy => hx y (List.mem_cons_of_mem x hy))

theorem subLinks_append_nobrack (old new : List Char) :
    ∀ (a t : List Char), (∀ x ∈ a, x ≠ '[') →
      subLinks old new (a ++ t) = a ++ subLinks old new t := by
  intro a
  induction a with
  | nil => intro t _; rw [List.nil_append, List.nil_append]
  | cons x a2 ih =>
    intro t hx
    rw [List.cons_append,
      subLinks_eq_none (matchTok_none_head _ (hx x (List.mem_cons_self x a2))),
      ih t (fun y hy => hx y (List.mem_cons_of_mem x hy)), List.cons_append]

theorem special_lc_fixed {x : Char} (h : x ∈ wikiSpecials) : lc x = x := by
  rcases (by simpa [wikiSpecials] using h :
    x = '[' ∨ x = ']' ∨ x = '|' ∨ x = '#') with h2 | h2 | h2 | h2 <;> subst h2 <;> decide

theorem mapped_old_nospecial {old old2 : List Char} (hmap : old2.map lc = old.map lc)
    (hold : ∀ c ∈ old, lc c ∉ wikiSpecials) : ∀ x ∈ old2, x ∉ wikiSpecials := by
  intro x hx hxs
  have h1 : lc x ∈ old2.map lc := List.mem_map_of_mem lc hx
  rw [hmap] at h1
  rcases List.mem_map.1 h1 with ⟨y, hy, hxy⟩
  have h2 := hold y hy
  rw [hxy] at h2
  rw [special_lc_fixed hxs] at h2
  exact h2 hxs

theorem hasTokD_chunk {old old2 d2 : List Char} (hold : goodOld old)
    (hmap : old2.map lc = old.map lc) (hd : isDelim d2) (d a rest : List Char) :
    hasTokD old d a ('[' :: '[' :: (old2 ++ d2 ++ rest)) =
      (tokDAt old d a ('[' :: '[' :: (old2 ++ d2 ++ rest)) || hasTokD old d a rest) := by
  rw [hasTokD_cons]
  have hons : ∀ x ∈ old2, x ∉ wikiSpecials := mapped_old_nospecial hmap hold.2
  have hne2 : old2 ≠ [] := by
    intro he
    apply hold.1
    have : old2.map lc = [] := by rw [he]; rfl
    rw [hmap] at this
    exact List.map_eq_nil_iff.1 this
  congr 1
  rw [hasTokD_cons]
  have e2 : tokDAt old d a ('[' :: (old2 ++ d2 ++ rest)) = false := by
    apply tokDAt_none
    apply matchTok_none_second
    intro c hc
    cases ho2 : old2 with
    | nil => exact absurd ho2 hne2
    | cons x xs =>
      rw [ho2] at hc
      simp only [List.cons_append, List.head?_cons, Option.some.injEq] at hc
      subst hc
      exact fun h => hons x (by rw [ho2]; exact List.mem_cons_self x xs) (h ▸ by decide)
  rw [e2]
  simp only [Bool.false_or]
  apply hasTokD_append_nobrack
  intro x hx
  rcases List.mem_append.1 hx with hx2 | hx2
  · exact fun h => hons x hx2 (h ▸ by decide)
  · exact ((isDelim_chars hd).2 x hx2).2

theorem hasTokD_subLinks {old new : List Char} (hold : goodOld old) (hnew : goodNew new)
    (hne : old.map lc ≠ new.map lc) (d a : List Char) (ha : ∀ x ∈ a, x ≠ '[') :
    ∀ (n : Nat) (cs : List Char), cs.length ≤ n → hasTokD old d a cs = true →
      ('[' :: '[' :: (new ++ d ++ a)) <:+: subLinks old new cs := by
  intro n
  induction n with
  | zero =>
    intro cs hl h
    have hn : cs = [] := List.length_eq_zero.1 (Nat.le_zero.1 hl)
    subst hn
    exact absurd h (by simp [hasTokD])
  | succ m ih =>
    intro cs hl h
    cases cs with
    | nil => exact absurd h (by simp [hasTokD])
    | cons c cs2 =>
      cases hm : matchTok old (c :: cs2) with
      | some pr =>
        rcases pr with ⟨d2, rest⟩
        rcases matchTok_some_decomp hm with ⟨old2, heq, hmap, hd2⟩
        rw [heq, hasTokD_chunk hold hmap hd2, ← heq] at h
        rcases Bool.or_eq_true _ _ ▸ h with htok | hrest
        · rw [tokDAt_some hm] at htok
          rcases Bool.and_eq_true _ _ ▸ htok with ⟨hdeq, hpre⟩
          have hdeq2 : d2 = d := by simpa using hdeq
          subst hdeq2
          rcases List.isPrefixOf_iff_prefix.1 hpre with ⟨rest2, hrest2⟩
          rw [subLinks_eq_some hm, ← hrest2,
            subLinks_append_nobrack old new a rest2 ha]
          apply List.IsPrefix.isInfix
          exact ⟨subLinks old new rest2, by simp only [List.cons_append, List.append_assoc]⟩
        · have hlt := matchTok_length hm
          simp only [List.length_cons] at hlt hl
          have hinf := ih rest (by omega) hrest
          rw [subLinks_eq_some hm]
          apply hinf.trans
          apply List.IsSuffix.isInfix
          exact ⟨'[' :: '[' :: (new ++ d2), by simp only [List.cons_append, List.append_assoc]⟩
      | none =>
        rw [hasTokD_cons, tokDAt_none hm] at h
        simp only [Bool.false_or] at h
        simp only [List.length_cons] at hl
        have hinf := ih cs2 (by omega) h
        rw [subLinks_eq_none hm]
        apply hinf.trans
        apply List.IsSuffix.isInfix
        exact ⟨[c], rfl⟩

theorem updateWikilinks_mem {oldN newN : String} {notes : List MNote} {note : MNote}
    (h : note ∈ (updateWikilinks oldN newN notes).2) :
    ∃ n0 ∈ notes, note = updateNote oldN newN n0 := by
  unfold updateWikilinks at h
  rcases List.mem_map.1 h with ⟨n0, hn0, heq⟩
  exact ⟨n0, hn0, heq.symm⟩

theorem moveRewriteLoop_mem {dst : AbsPath} {oldN newN : String} :
    ∀ {notes res : List MNote}, moveRewriteLoop dst oldN newN notes = Except.ok res →
      ∀ note ∈ res, note.path ≠ dst → ∃ c0, note.content = some (subLinksStr oldN newN c0) := by
  intro notes
  induction notes with
  | nil =>
    intro res h note hmem _
    have h2 : (Except.ok [] : Except String (List MNote)) = Except.ok res := h
    simp only [Except.ok.injEq] at h2
    rw [← h2] at hmem
    exact absurd hmem (List.not_mem_nil note)
  | cons n rest ih =>
    intro res h note hmem hpd
    unfold moveRewriteLoop at h
    split at h
    · next hnp =>
      cases hres : moveRewriteLoop dst oldN newN rest with
      | error e => rw [hres] at h; exact absurd h (by simp [Except.map])
      | ok res2 =>
        rw [hres] at h
        simp only [Except.map, Except.ok.injEq] at h
        rw [← h] at hmem
        rcases List.mem_cons.1 hmem with rfl | hmem2
        · exact absurd hnp hpd
        · exact ih hres note hmem2 hpd
    · next hnp =>
      split at h
      · exact absurd h (by simp)
      · next c hc =>
        cases hres : moveRewriteLoop dst oldN newN rest with
        | error e => rw [hres] at h; exact absurd h (by simp [Except.map])
        | ok res2 =>
          rw [hres] at h
          simp only [Except.map, Except.ok.injEq] at h
          rw [← h] at hmem
          rcases List.mem_cons.1 hmem with rfl | hmem2
          · exact ⟨c, rfl⟩
          · exact ih hres note hmem2 hpd

theorem hasTokStr_subLinksStr {oldN newN : String} (hold : goodOld oldN.data)
    (hnew : goodNew newN.data) (hne : oldN.data.map lc ≠ newN.data.map lc) (c : String) :
    hasTokStr oldN (subLinksStr oldN newN c) = false :=
  hasTok_subLinks hold hnew hne c.data.length c.data (Nat.le_refl _)

/-- C2 (counterexample): `move_note` skips the moved note itself when rewriting
wikilinks, so a self-link survives the rename: moving `old.md` (whose body
contains `[[old]]`) to `new.md` leaves `new.md` still containing the residual
`[[old]]` token referencing the renamed note. -/
theorem links_C2_counterexample :
    moveNote notesC2 ["v", "old.md"] ["v", "new.md"] =
      Except.ok [⟨["v", "new.md"], some "see [[old]]"⟩] ∧
    hasTokStr "old" "see [[old]]" = true ∧
    stemOf ["v", "old.md"] = "old" ∧ stemOf ["v", "new.md"] = "new" :=
  ⟨rfl, by decide, by decide, by decide⟩

/-- C2 (amended): for ordinary names (nonempty, free of the pattern
metacharacters `[`, `]`, `|`, `#`, differing case-insensitively), after
`update_wikilinks` no readable note retains a residual `[[old]]`, `[[old|`, or
`[[old#` token; after a successful `move_note` the same holds for every note
other than the moved note itself, which is skipped and may retain
self-references; and rewriting preserves trailing text: whenever a
`[[old` + delimiter token followed by text `a` occurred, the rewritten content
contains `[[new` + the same delimiter + `a` unchanged. -/
theorem links_C2_rename_propagation (oldN newN : String)
    (hold : goodOld oldN.data) (hnew : goodNew newN.data)
    (hne : oldN.data.map lc ≠ newN.data.map lc) :
    (∀ (notes : List MNote) (note : MNote) (c : String),
      note ∈ (updateWikilinks oldN newN notes).2 → note.content = some c →
      hasTokStr oldN c = false) ∧
    (∀ (notes res : List MNote) (src dst : AbsPath) (note : MNote) (c : String),
      stemOf src = oldN → stemOf dst = newN → moveNote notes src dst = Except.ok res →
      note ∈ res → note.path ≠ dst → note.content = some c → hasTokStr oldN c = false) ∧
    (∀ (c : String) (d a : List Char), isDelim d → (∀ x ∈ a, x ≠ '[') →
      hasTokD oldN.data d a c.data = true →
      ('[' :: '[' :: (newN.data ++ d ++ a)) <:+: (subLinksStr oldN newN c).data) := by
  refine ⟨?_, ?_, ?_⟩
  · intro notes note c hmem hc
    rcases updateWikilinks_mem hmem with ⟨n0, _, heq⟩
    subst heq
    unfold updateNote at hc
    split at hc
    · next hnone =>
      rw [hnone] at hc
      exact absurd hc (by simp)
    · next c0 hc0 =>
      simp only [Option.some.injEq] at hc
      rw [← hc]
      exact hasTokStr_subLinksStr hold hnew hne c0
  · intro notes res src dst note c hsrc hdst hmove hmem hpd hc
    unfold moveNote at hmove
    rw [hsrc, hdst] at hmove
    have hnn : oldN ≠ newN := by
      intro he
      exact hne (by rw [he])
    rw [if_neg hnn] at hmove
    rcases moveRewriteLoop_mem hmove note hmem hpd with ⟨c0, hc0⟩
    rw [hc0] at hc
    simp only [Option.some.injEq] at hc
    rw [← hc]
    exact hasTokStr_subLinksStr hold hnew hne c0
  · intro c d a hd ha h
    exact hasTokD_subLinks hold hnew hne d a ha c.data.length c.data (Nat.le_refl _) h

/-- Witness for C2 (amended): renaming `old` to `new` over a one-note vault via
update_wikilinks leaves no residual token. -/
theorem links_C2_rename_propagation_witness :
    (goodOld ("old" : String).data ∧ goodNew ("new" : String).data ∧
      ("old" : String).data.map lc ≠ ("new" : String).data.map lc) ∧
    hasTokStr "old" "A [[new|t]] B" = false :=
  ⟨⟨by decide, by decide, by decide⟩,
    (links_C2_rename_propagation "old" "new" (by decide) (by decide) (by decide)).1
      [⟨["v", "a.md"], some "A [[old|t]] B"⟩] ⟨["v", "a.md"], some "A [[new|t]] B"⟩
      "A [[new|t]] B" (by decide) rfl⟩
